import Mathlib

/-!
Verification of the grid A* path planner of `autonomous_parking.py`.

The development shallowly embeds the three functions of the planner core,
`heuristic`, `get_neighbors` and `astar`, and proves the specification
properties about them.  Python floats that arise in the code are always of
the exact form `a + b·√2` with natural coefficients, so costs and priorities
are represented by the coefficient pair (`W` below) and interpreted into `ℝ`
by `valW`; comparisons are performed exactly by integer arithmetic.  The
unbounded `while` loops of the code are embedded with an explicit fuel
parameter, and termination is proved.
-/

/-- Coefficient pair `(a, b)` representing the real number `a + b·√2`.
Every cost, priority and heuristic value computed by the planner has this
form. -/
abbrev W := ℕ × ℕ

/-- Real value of a coefficient pair. -/
noncomputable def valW (w : W) : ℝ := w.1 + w.2 * Real.sqrt 2

/-- Addition of cost values (componentwise on coefficients). -/
def addW (u v : W) : W := (u.1 + v.1, u.2 + v.2)

/-- Decidable test for `(i : ℝ) < j * √2` by integer arithmetic. -/
def sqLt (i j : ℤ) : Prop :=
  (0 ≤ j ∧ (i < 0 ∨ i * i < 2 * (j * j))) ∨ (j < 0 ∧ i < 0 ∧ 2 * (j * j) < i * i)

instance (i j : ℤ) : Decidable (sqLt i j) :=
  inferInstanceAs (Decidable ((0 ≤ j ∧ (i < 0 ∨ i * i < 2 * (j * j))) ∨
    (j < 0 ∧ i < 0 ∧ 2 * (j * j) < i * i)))

theorem sq_sqrt_two : Real.sqrt 2 * Real.sqrt 2 = 2 :=
  Real.mul_self_sqrt (by norm_num)

theorem sqrt_two_pos : (0 : ℝ) < Real.sqrt 2 :=
  Real.sqrt_pos.mpr (by norm_num)

theorem one_le_sqrt_two : (1 : ℝ) ≤ Real.sqrt 2 := by
  nlinarith [sq_sqrt_two, sqrt_two_pos]

theorem sqrt_two_le_two : Real.sqrt 2 ≤ 2 := by
  nlinarith [sq_sqrt_two, sqrt_two_pos]

theorem sqLt_iff (i j : ℤ) : sqLt i j ↔ (i : ℝ) < j * Real.sqrt 2 := by
  unfold sqLt
  rcases le_or_lt 0 j with hj | hj
  · rcases lt_or_le i 0 with hi | hi
    · have hr : (i : ℝ) < j * Real.sqrt 2 := by
        have h1 : (i : ℝ) < 0 := by exact_mod_cast hi
        have h2 : (0 : ℝ) ≤ (j : ℝ) * Real.sqrt 2 := by
          have : (0 : ℝ) ≤ (j : ℝ) := by exact_mod_cast hj
          positivity
        linarith
      simp only [hr, iff_true]
      exact Or.inl ⟨hj, Or.inl hi⟩
    · constructor
      · rintro (⟨_, hlt | hlt⟩ | ⟨hjneg, _, _⟩)
        · omega
        · have hlt' : (i : ℝ) * i < 2 * (j * j) := by exact_mod_cast hlt
          have hjr : (0 : ℝ) ≤ (j : ℝ) := by exact_mod_cast hj
          have hir : (0 : ℝ) ≤ (i : ℝ) := by exact_mod_cast hi
          by_contra hcon
          push_neg at hcon
          have hsq : (j : ℝ) * Real.sqrt 2 * ((j : ℝ) * Real.sqrt 2) ≤ (i : ℝ) * i :=
            mul_le_mul hcon hcon (by positivity) hir
          nlinarith [sq_sqrt_two]
        · omega
      · intro hr
        refine Or.inl ⟨hj, Or.inr ?_⟩
        have hir : (0 : ℝ) ≤ (i : ℝ) := by exact_mod_cast hi
        have h2 : (i : ℝ) * i < 2 * (j * j) := by
          nlinarith [sq_sqrt_two, sqrt_two_pos]
        exact_mod_cast h2
  · rcases lt_or_le i 0 with hi | hi
    · constructor
      · rintro (⟨hj0, _⟩ | ⟨_, _, hlt⟩)
        · omega
        · have hlt' : 2 * ((j : ℝ) * j) < (i : ℝ) * i := by exact_mod_cast hlt
          have hir : (i : ℝ) < 0 := by exact_mod_cast hi
          have hjr : (j : ℝ) < 0 := by exact_mod_cast hj
          nlinarith [sq_sqrt_two, sqrt_two_pos]
      · intro hr
        refine Or.inr ⟨hj, hi, ?_⟩
        have hir : (i : ℝ) < 0 := by exact_mod_cast hi
        have hjr : (j : ℝ) < 0 := by exact_mod_cast hj
        have hneg : (0 : ℝ) < -((j : ℝ) * Real.sqrt 2) := by
          nlinarith [sqrt_two_pos]
        have h1 : -((j : ℝ) * Real.sqrt 2) < -(i : ℝ) := by linarith
        have hsq : -((j : ℝ) * Real.sqrt 2) * -((j : ℝ) * Real.sqrt 2) < -(i : ℝ) * -(i : ℝ) :=
          mul_lt_mul h1 (le_of_lt h1) hneg (by linarith)
        have h2 : 2 * ((j : ℝ) * j) < (i : ℝ) * i := by
          nlinarith [sq_sqrt_two]
        exact_mod_cast h2
    · have hr : ¬ (i : ℝ) < j * Real.sqrt 2 := by
        have hir : (0 : ℝ) ≤ (i : ℝ) := by exact_mod_cast hi
        have hjr : (j : ℝ) < 0 := by exact_mod_cast hj
        have : (j : ℝ) * Real.sqrt 2 < 0 := mul_neg_of_neg_of_pos hjr sqrt_two_pos
        linarith
      simp only [hr, iff_false]
      rintro (⟨hj0, _⟩ | ⟨_, hi0, _⟩) <;> omega

/-- Exact strict comparison of two cost values. -/
def ltW (u v : W) : Prop := sqLt ((u.1 : ℤ) - v.1) ((v.2 : ℤ) - u.2)

instance (u v : W) : Decidable (ltW u v) :=
  inferInstanceAs (Decidable (sqLt ((u.1 : ℤ) - v.1) ((v.2 : ℤ) - u.2)))

theorem ltW_iff (u v : W) : ltW u v ↔ valW u < valW v := by
  unfold ltW valW
  rw [sqLt_iff]
  push_cast
  constructor <;> intro h <;> nlinarith [Real.sqrt_nonneg 2]

/-- Exact non-strict comparison of two cost values. -/
def leW (u v : W) : Prop := ¬ ltW v u

instance (u v : W) : Decidable (leW u v) :=
  inferInstanceAs (Decidable (¬ ltW v u))

theorem leW_iff (u v : W) : leW u v ↔ valW u ≤ valW v := by
  unfold leW
  rw [ltW_iff, not_lt]

theorem valW_addW (u v : W) : valW (addW u v) = valW u + valW v := by
  unfold valW addW
  push_cast
  ring

theorem valW_nonneg (u : W) : 0 ≤ valW u := by
  unfold valW
  positivity

theorem valW_zero : valW (0, 0) = 0 := by
  unfold valW
  norm_num

theorem valW_injective {u v : W} (h : valW u = valW v) : u = v := by
  unfold valW at h
  by_cases hb : u.2 = v.2
  · have : (u.1 : ℝ) = v.1 := by
      rw [hb] at h
      linarith
    have h1 : u.1 = v.1 := by exact_mod_cast this
    exact Prod.ext h1 hb
  · exfalso
    have hne : ((v.2 : ℝ)) - u.2 ≠ 0 := by
      intro hc
      apply hb
      have : (u.2 : ℝ) = v.2 := by linarith
      exact_mod_cast this
    have hs : Real.sqrt 2 = ((u.1 : ℝ) - v.1) / ((v.2 : ℝ) - u.2) := by
      field_simp
      linarith
    have hq : Real.sqrt 2 = ((((u.1 : ℤ) - v.1 : ℤ) / ((v.2 : ℤ) - u.2 : ℤ) : ℚ) : ℝ) := by
      rw [hs]
      push_cast
      ring
    exact irrational_sqrt_two ⟨_, hq.symm⟩

theorem ltW_trans {u v w : W} (h1 : ltW u v) (h2 : ltW v w) : ltW u w := by
  rw [ltW_iff] at *
  exact lt_trans h1 h2

theorem ltW_irrefl (u : W) : ¬ ltW u u := by
  rw [ltW_iff]
  exact lt_irrefl _

theorem leW_refl (u : W) : leW u u := by
  rw [leW_iff]

theorem leW_trans {u v w : W} (h1 : leW u v) (h2 : leW v w) : leW u w := by
  rw [leW_iff] at *
  exact le_trans h1 h2

theorem ltW_of_ltW_of_leW {u v w : W} (h1 : ltW u v) (h2 : leW v w) : ltW u w := by
  rw [ltW_iff] at *
  rw [leW_iff] at h2
  exact lt_of_lt_of_le h1 h2

theorem leW_of_ltW {u v : W} (h : ltW u v) : leW u v := by
  rw [ltW_iff] at h
  rw [leW_iff]
  exact le_of_lt h

theorem eq_of_not_ltW {u v : W} (h1 : ¬ ltW u v) (h2 : ¬ ltW v u) : u = v := by
  rw [ltW_iff] at h1 h2
  exact valW_injective (le_antisymm (not_lt.mp h2) (not_lt.mp h1))

theorem leW_total (u v : W) : leW u v ∨ leW v u := by
  rw [leW_iff, leW_iff]
  exact le_total _ _

theorem addW_leW_addW {u v x y : W} (h1 : leW u v) (h2 : leW x y) :
    leW (addW u x) (addW v y) := by
  rw [leW_iff] at *
  rw [valW_addW, valW_addW]
  exact add_le_add h1 h2

/-! ## Cells and grids -/

/-- Grid cell: a pair of integer coordinates (row, column), as in the code. -/
abbrev Cell := ℤ × ℤ

/-- Occupancy grid: dimensions together with the stored value of each cell.
`val i j` models the numpy read `grid[i, j]`; the planner only performs
in-bounds reads from in-bounds cells, so the values outside the bounds are
irrelevant to every run from an in-bounds start. -/
structure Grid where
  rows : ℕ
  cols : ℕ
  val : ℤ → ℤ → ℤ

/-- Bounds check `0 <= x < grid.shape[0] and 0 <= y < grid.shape[1]`. -/
def inBoundsG (g : Grid) (c : Cell) : Prop :=
  0 ≤ c.1 ∧ c.1 < (g.rows : ℤ) ∧ 0 ≤ c.2 ∧ c.2 < (g.cols : ℤ)

instance (g : Grid) (c : Cell) : Decidable (inBoundsG g c) :=
  inferInstanceAs (Decidable (0 ≤ c.1 ∧ c.1 < (g.rows : ℤ) ∧ 0 ≤ c.2 ∧ c.2 < (g.cols : ℤ)))

/-- The eight neighbor offsets, in the enumeration order of the code
(`dx` outer loop, `dy` inner loop, skipping `(0, 0)`). -/
def offsets : List (ℤ × ℤ) :=
  [(-1, -1), (-1, 0), (-1, 1), (0, -1), (0, 1), (1, -1), (1, 0), (1, 1)]

/-- Embedding of `get_neighbors(node, grid)`: the in-bounds 8-directional
neighbors whose cell value is `0`, a diagonal move being dropped when either
orthogonal pass-through cell holds the value `1`. -/
def get_neighbors (node : Cell) (g : Grid) : List Cell :=
  offsets.filterMap (fun d =>
    if inBoundsG g (node.1 + d.1, node.2 + d.2) then
      if d.1 ≠ 0 ∧ d.2 ≠ 0 ∧ (g.val (node.1 + d.1) node.2 = 1 ∨ g.val node.1 (node.2 + d.2) = 1)
      then none
      else if g.val (node.1 + d.1) (node.2 + d.2) = 0 then some (node.1 + d.1, node.2 + d.2)
      else none
    else none)

/-- The sequence of grid reads `get_neighbors` performs, in execution order,
including the short-circuit of the Python `or`: for a diagonal offset the
first pass-through cell is read, the second only if the first was free, and
the destination only if neither blocked the move. -/
def neighborReads (node : Cell) (g : Grid) : List Cell :=
  offsets.flatMap (fun d =>
    if inBoundsG g (node.1 + d.1, node.2 + d.2) then
      if d.1 ≠ 0 ∧ d.2 ≠ 0 then
        (node.1 + d.1, node.2) ::
          (if g.val (node.1 + d.1) node.2 = 1 then []
           else (node.1, node.2 + d.2) ::
             (if g.val node.1 (node.2 + d.2) = 1 then []
              else [(node.1 + d.1, node.2 + d.2)]))
      else [(node.1 + d.1, node.2 + d.2)]
    else [])

/-! ## Heuristic and step costs -/

/-- Embedding of `heuristic(a, b)`: the octile distance
`(dx + dy) + (√2 - 2) * min(dx, dy)`, stored exactly as the coefficient pair
`(dx + dy - 2 * min dx dy, min dx dy)`. -/
def heuristic (a b : Cell) : W :=
  ((a.1 - b.1).natAbs + (a.2 - b.2).natAbs
      - 2 * min (a.1 - b.1).natAbs (a.2 - b.2).natAbs,
    min (a.1 - b.1).natAbs (a.2 - b.2).natAbs)

/-- Real value of the octile-distance formula of the code. -/
noncomputable def heuristicR (a b : Cell) : ℝ :=
  (|(a.1 : ℝ) - (b.1 : ℝ)| + |(a.2 : ℝ) - (b.2 : ℝ)|)
    + (Real.sqrt 2 - 2) * min |(a.1 : ℝ) - (b.1 : ℝ)| |(a.2 : ℝ) - (b.2 : ℝ)|

theorem valW_heuristic (a b : Cell) : valW (heuristic a b) = heuristicR a b := by
  unfold valW heuristic heuristicR
  set dx := (a.1 - b.1).natAbs with hdx
  set dy := (a.2 - b.2).natAbs with hdy
  have hx : |(a.1 : ℝ) - (b.1 : ℝ)| = (dx : ℝ) := by
    rw [hdx]
    rw [show (a.1 : ℝ) - (b.1 : ℝ) = ((a.1 - b.1 : ℤ) : ℝ) by push_cast; ring]
    rw [← Int.cast_abs, Int.abs_eq_natAbs, Int.cast_natCast]
  have hy : |(a.2 : ℝ) - (b.2 : ℝ)| = (dy : ℝ) := by
    rw [hdy]
    rw [show (a.2 : ℝ) - (b.2 : ℝ) = ((a.2 - b.2 : ℤ) : ℝ) by push_cast; ring]
    rw [← Int.cast_abs, Int.abs_eq_natAbs, Int.cast_natCast]
  have hmin : 2 * min dx dy ≤ dx + dy := by
    rcases Nat.le_total dx dy with h | h
    · rw [Nat.min_eq_left h]; omega
    · rw [Nat.min_eq_right h]; omega
  rw [hx, hy, Nat.cast_sub hmin, Nat.cast_min]
  push_cast
  ring

/-- Embedding of the edge cost `np.sqrt((n0-c0)**2 + (n1-c1)**2)`, exact for
the unit offsets the search uses (squared length `0`, `1` or `2`). -/
def moveCost (a b : Cell) : W :=
  if (b.1 - a.1) * (b.1 - a.1) + (b.2 - a.2) * (b.2 - a.2) = 2 then (0, 1)
  else (((b.1 - a.1) * (b.1 - a.1) + (b.2 - a.2) * (b.2 - a.2)).toNat, 0)

/-- Real Euclidean step length of the code's formula. -/
noncomputable def stepCostR (a b : Cell) : ℝ :=
  Real.sqrt (((b.1 - a.1 : ℤ) : ℝ) ^ 2 + ((b.2 - a.2 : ℤ) : ℝ) ^ 2)

theorem valW_moveCost {a b : Cell} (h1 : (b.1 - a.1).natAbs ≤ 1)
    (h2 : (b.2 - a.2).natAbs ≤ 1) : valW (moveCost a b) = stepCostR a b := by
  have hd1 : b.1 - a.1 = -1 ∨ b.1 - a.1 = 0 ∨ b.1 - a.1 = 1 := by omega
  have hd2 : b.2 - a.2 = -1 ∨ b.2 - a.2 = 0 ∨ b.2 - a.2 = 1 := by omega
  unfold moveCost stepCostR valW
  rcases hd1 with h | h | h <;> rcases hd2 with h' | h' | h' <;>
    rw [h, h'] <;> norm_num

/-! ## Heap entries and the frontier

Python stores `(priority, cost, node)` triples in a binary heap; the pop
returns the least triple under lexicographic tuple comparison, which in the
exact-value semantics is a total order (two triples comparing equal are
identical).  The frontier is therefore modelled as a list kept sorted by
that order, with `heapPush` the ordered insertion. -/

/-- Frontier entry `(priority, cost, node)`. -/
abbrev Entry := W × W × Cell

/-- Lexicographic comparison of cells, as Python compares `(int, int)` tuples. -/
def cellLe (a b : Cell) : Prop := a.1 < b.1 ∨ (a.1 = b.1 ∧ a.2 ≤ b.2)

instance (a b : Cell) : Decidable (cellLe a b) :=
  inferInstanceAs (Decidable (a.1 < b.1 ∨ (a.1 = b.1 ∧ a.2 ≤ b.2)))

theorem cellLe_total (a b : Cell) : cellLe a b ∨ cellLe b a := by
  unfold cellLe
  rcases lt_trichotomy a.1 b.1 with h | h | h
  · exact Or.inl (Or.inl h)
  · rcases le_total a.2 b.2 with h2 | h2
    · exact Or.inl (Or.inr ⟨h, h2⟩)
    · exact Or.inr (Or.inr ⟨h.symm, h2⟩)
  · exact Or.inr (Or.inl h)

theorem cellLe_trans {a b c : Cell} (h1 : cellLe a b) (h2 : cellLe b c) : cellLe a c := by
  unfold cellLe at *
  rcases h1 with h1 | ⟨h1, h1'⟩ <;> rcases h2 with h2 | ⟨h2, h2'⟩
  · exact Or.inl (lt_trans h1 h2)
  · exact Or.inl (h2 ▸ h1)
  · exact Or.inl (h1 ▸ h2)
  · exact Or.inr ⟨h1.trans h2, le_trans h1' h2'⟩

/-- Tuple comparison of frontier entries. -/
def entryLe (e f : Entry) : Prop :=
  ltW e.1 f.1 ∨ (e.1 = f.1 ∧
    (ltW e.2.1 f.2.1 ∨ (e.2.1 = f.2.1 ∧ cellLe e.2.2 f.2.2)))

instance (e f : Entry) : Decidable (entryLe e f) :=
  inferInstanceAs (Decidable (ltW e.1 f.1 ∨ (e.1 = f.1 ∧
    (ltW e.2.1 f.2.1 ∨ (e.2.1 = f.2.1 ∧ cellLe e.2.2 f.2.2)))))

theorem entryLe_refl (e : Entry) : entryLe e e :=
  Or.inr ⟨rfl, Or.inr ⟨rfl, Or.inr ⟨rfl, le_refl _⟩⟩⟩

theorem entryLe_total (e f : Entry) : entryLe e f ∨ entryLe f e := by
  unfold entryLe
  rcases Decidable.em (ltW e.1 f.1) with h1 | h1
  · exact Or.inl (Or.inl h1)
  · rcases Decidable.em (ltW f.1 e.1) with h2 | h2
    · exact Or.inr (Or.inl h2)
    · have hp : e.1 = f.1 := eq_of_not_ltW h1 h2
      rcases Decidable.em (ltW e.2.1 f.2.1) with h3 | h3
      · exact Or.inl (Or.inr ⟨hp, Or.inl h3⟩)
      · rcases Decidable.em (ltW f.2.1 e.2.1) with h4 | h4
        · exact Or.inr (Or.inr ⟨hp.symm, Or.inl h4⟩)
        · have hc : e.2.1 = f.2.1 := eq_of_not_ltW h3 h4
          rcases cellLe_total e.2.2 f.2.2 with h5 | h5
          · exact Or.inl (Or.inr ⟨hp, Or.inr ⟨hc, h5⟩⟩)
          · exact Or.inr (Or.inr ⟨hp.symm, Or.inr ⟨hc.symm, h5⟩⟩)

theorem entryLe_trans {e f h : Entry} (h1 : entryLe e f) (h2 : entryLe f h) :
    entryLe e h := by
  unfold entryLe at *
  rcases h1 with h1 | ⟨hp1, h1⟩
  · rcases h2 with h2 | ⟨hp2, _⟩
    · exact Or.inl (ltW_trans h1 h2)
    · exact Or.inl (hp2 ▸ h1)
  · rcases h2 with h2 | ⟨hp2, h2⟩
    · exact Or.inl (hp1 ▸ h2)
    · refine Or.inr ⟨hp1.trans hp2, ?_⟩
      rcases h1 with h1 | ⟨hc1, h1⟩
      · rcases h2 with h2 | ⟨hc2, _⟩
        · exact Or.inl (ltW_trans h1 h2)
        · exact Or.inl (hc2 ▸ h1)
      · rcases h2 with h2 | ⟨hc2, h2⟩
        · exact Or.inl (hc1 ▸ h2)
        · exact Or.inr ⟨hc1.trans hc2, cellLe_trans h1 h2⟩

/-- Ordered insertion into the sorted frontier list. -/
def heapPush (e : Entry) : List Entry → List Entry
  | [] => [e]
  | x :: xs => if entryLe x e then x :: heapPush e xs else e :: x :: xs

theorem mem_heapPush {a e : Entry} : ∀ {l : List Entry},
    a ∈ heapPush e l ↔ a = e ∨ a ∈ l
  | [] => by simp [heapPush]
  | x :: xs => by
    unfold heapPush
    split
    · simp only [List.mem_cons, @mem_heapPush _ _ xs]
      tauto
    · simp only [List.mem_cons]

theorem sorted_heapPush (e : Entry) : ∀ {l : List Entry},
    List.Sorted entryLe l → List.Sorted entryLe (heapPush e l)
  | [] => by
    intro _
    simp [heapPush]
  | x :: xs => by
    intro hs
    rw [List.sorted_cons] at hs
    unfold heapPush
    split
    · rw [List.sorted_cons]
      refine ⟨?_, sorted_heapPush e hs.2⟩
      intro b hb
      rcases mem_heapPush.mp hb with rfl | hb
      · assumption
      · exact hs.1 b hb
    · rw [List.sorted_cons]
      have hxe : entryLe e x := by
        rcases entryLe_total x e with h | h
        · exact absurd h (by assumption)
        · exact h
      refine ⟨?_, by rw [List.sorted_cons]; exact hs⟩
      intro b hb
      rcases List.mem_cons.mp hb with rfl | hb
      · exact hxe
      · exact entryLe_trans hxe (hs.1 b hb)

theorem sorted_head_le {e : Entry} {l : List Entry}
    (hs : List.Sorted entryLe (e :: l)) : ∀ a ∈ e :: l, entryLe e a := by
  intro a ha
  rcases List.mem_cons.mp ha with rfl | ha
  · exact entryLe_refl a
  · exact (List.sorted_cons.mp hs).1 a ha

/-! ## Dictionaries

The Python dicts `cost_so_far` and `came_from` are modelled as association
lists whose keys are unique; `insertC` replaces any previous binding. -/

/-- Dictionary lookup. -/
def lookupC {β : Type} (l : List (Cell × β)) (c : Cell) : Option β :=
  (l.find? (fun p => decide (p.1 = c))).map Prod.snd

/-- Dictionary update `d[c] = b`. -/
def insertC {β : Type} (l : List (Cell × β)) (c : Cell) (b : β) : List (Cell × β) :=
  (c, b) :: l.filter (fun p => decide (p.1 ≠ c))

theorem lookupC_nil {β : Type} (c : Cell) : lookupC ([] : List (Cell × β)) c = none := rfl

theorem lookupC_cons {β : Type} (k : Cell) (b : β) (l : List (Cell × β)) (c : Cell) :
    lookupC ((k, b) :: l) c = if k = c then some b else lookupC l c := by
  by_cases h : k = c
  · rw [if_pos h]
    unfold lookupC
    rw [List.find?_cons_of_pos _ (by simpa using h)]
    rfl
  · rw [if_neg h]
    unfold lookupC
    rw [List.find?_cons_of_neg _ (by simpa using h)]

theorem lookupC_insertC_self {β : Type} (l : List (Cell × β)) (c : Cell) (b : β) :
    lookupC (insertC l c b) c = some b := by
  unfold insertC
  rw [lookupC_cons, if_pos rfl]

theorem lookupC_filter_ne {β : Type} {c c' : Cell} (h : c' ≠ c) :
    ∀ (l : List (Cell × β)),
      lookupC (l.filter (fun p => decide (p.1 ≠ c))) c' = lookupC l c'
  | [] => rfl
  | (k, b) :: t => by
    by_cases hk : k = c
    · rw [List.filter_cons_of_neg (by simpa using hk)]
      rw [lookupC_filter_ne h t, lookupC_cons, if_neg (by rw [hk]; exact fun hc => h hc.symm)]
    · rw [List.filter_cons_of_pos (by simpa using hk)]
      rw [lookupC_cons, lookupC_cons, lookupC_filter_ne h t]

theorem lookupC_insertC_ne {β : Type} (l : List (Cell × β)) {c c' : Cell} (b : β)
    (h : c' ≠ c) : lookupC (insertC l c b) c' = lookupC l c' := by
  unfold insertC
  rw [lookupC_cons, if_neg (fun hc => h hc.symm), lookupC_filter_ne h]

theorem mem_of_lookupC {β : Type} {l : List (Cell × β)} {c : Cell} {b : β}
    (h : lookupC l c = some b) : (c, b) ∈ l := by
  unfold lookupC at h
  rcases Option.map_eq_some'.mp h with ⟨p, hp, hb⟩
  have hk : p.1 = c := by simpa using List.find?_some hp
  have hm := List.mem_of_find?_eq_some hp
  have : p = (c, b) := by
    rcases p with ⟨p1, p2⟩
    simp only at hk hb
    rw [hk, hb]
  exact this ▸ hm

theorem lookupC_isSome_of_mem {β : Type} {l : List (Cell × β)} {c : Cell} {b : β}
    (h : (c, b) ∈ l) : (lookupC l c).isSome := by
  have hfind : (l.find? (fun p => decide (p.1 = c))).isSome := by
    rw [List.find?_isSome]
    exact ⟨(c, b), h, by simp⟩
  unfold lookupC
  cases hf : l.find? (fun p => decide (p.1 = c)) with
  | none => rw [hf] at hfind; simp at hfind
  | some p => simp

/-! ## The search engine -/

/-- Search state: the frontier, the two dictionaries and the (ghost) list of
entries popped so far, most recent first.  The trace does not influence the
computation; it only names the pops for the invariants. -/
structure AState where
  openSet : List Entry
  cameFrom : List (Cell × Cell)
  costSoFar : List (Cell × W)
  trace : List Entry

/-- Test `neighbor not in cost_so_far or new_cost < cost_so_far[neighbor]`. -/
def improvesB (cs : List (Cell × W)) (n : Cell) (w : W) : Bool :=
  match lookupC cs n with
  | none => true
  | some old => decide (ltW w old)

/-- Body of the `for neighbor in get_neighbors(...)` loop for one neighbor. -/
def processNeighbor (goal cur : Cell) (curCost : W) (s : AState) (n : Cell) : AState :=
  if improvesB s.costSoFar n (addW curCost (moveCost cur n)) then
    ⟨heapPush (addW (addW curCost (moveCost cur n)) (heuristic n goal),
        addW curCost (moveCost cur n), n) s.openSet,
      insertC s.cameFrom n cur,
      insertC s.costSoFar n (addW curCost (moveCost cur n)),
      s.trace⟩
  else s

/-- Expansion of a popped entry: the full neighbor loop. -/
def expand (g : Grid) (goal : Cell) (e : Entry) (s : AState) : AState :=
  (get_neighbors e.2.2 g).foldl (processNeighbor goal e.2.2 e.2.1) s

/-- The `while open_set` loop, with fuel.  `none` means the fuel ran out;
`some s` is the state at loop exit (frontier exhausted, or the goal popped —
the pop of the break iteration is performed, the expansion is not). -/
def runLoop (g : Grid) (goal : Cell) : ℕ → AState → Option AState
  | 0, _ => none
  | _ + 1, ⟨[], cf, cs, tr⟩ => some ⟨[], cf, cs, tr⟩
  | fuel + 1, ⟨e :: rest, cf, cs, tr⟩ =>
    if e.2.2 = goal then some ⟨rest, cf, cs, e :: tr⟩
    else runLoop g goal fuel (expand g goal e ⟨rest, cf, cs, e :: tr⟩)

/-- The path-reconstruction `while current != start` loop, with fuel;
`none` covers both fuel exhaustion and a missing predecessor (the KeyError
case of the Python dict access). -/
def recon (cf : List (Cell × Cell)) (start : Cell) : ℕ → Cell → List Cell → Option (List Cell)
  | 0, _, _ => none
  | fuel + 1, cur, acc =>
    if cur = start then some (start :: acc)
    else
      match lookupC cf cur with
      | none => none
      | some p => recon cf start fuel p (cur :: acc)

/-- Initial state: frontier `[(0, 0, start)]`, `cost_so_far = {start: 0}`,
`came_from = {}`. -/
def initState (start : Cell) : AState :=
  ⟨[((0, 0), (0, 0), start)], [], [(start, (0, 0))], []⟩

/-- Post-loop part of `astar`: the `if goal not in came_from` test and the
path reconstruction, for the state `s` the main loop exited in. -/
def finishRun (start goal : Cell) (fuel : ℕ) (s : AState) : Option (Option (List Cell)) :=
  match lookupC s.cameFrom goal with
  | none => some none
  | some _ =>
    match recon s.cameFrom start fuel goal [] with
    | none => none
    | some p => some (some p)

/-- Embedding of `astar(start, goal, grid)` with fuel for the two loops.
`none`: fuel exhausted.  `some none`: the code returns `None` (no path).
`some (some p)`: the code returns the path `p`. -/
def astarRun (fuel : ℕ) (start goal : Cell) (g : Grid) : Option (Option (List Cell)) :=
  (runLoop g goal fuel (initState start)).bind (fun s => finishRun start goal fuel s)

/-- Observable behaviour of `astar` on an input: the result of any
sufficiently fuelled run. -/
def AstarReturns (start goal : Cell) (g : Grid) (r : Option (List Cell)) : Prop :=
  ∃ n, astarRun n start goal g = some r

/-! ## Legal paths -/

/-- A list of cells each consecutive pair of which is a legal move. -/
def IsPathList (g : Grid) (p : List Cell) : Prop :=
  List.Chain' (fun a b => b ∈ get_neighbors a g) p

instance (g : Grid) (p : List Cell) : Decidable (IsPathList g p) :=
  inferInstanceAs (Decidable (List.Chain' (fun a b => b ∈ get_neighbors a g) p))

/-- A legal path from `s` to `t`: nonempty, consecutive cells legal moves,
first cell `s`, last cell `t`. -/
def PathFromTo (g : Grid) (s t : Cell) (p : List Cell) : Prop :=
  IsPathList g p ∧ p.head? = some s ∧ p.getLast? = some t

instance (g : Grid) (s t : Cell) (p : List Cell) : Decidable (PathFromTo g s t p) :=
  inferInstanceAs (Decidable (IsPathList g p ∧ p.head? = some s ∧ p.getLast? = some t))

/-- Total Euclidean edge cost of a cell sequence, by the code's formula. -/
noncomputable def pathCostR : List Cell → ℝ
  | [] => 0
  | [_] => 0
  | a :: b :: rest => stepCostR a b + pathCostR (b :: rest)

/-! ## Fuel monotonicity and determinism -/

theorem runLoop_mono (g : Grid) (goal : Cell) :
    ∀ (n m : ℕ) (s t : AState), n ≤ m →
      runLoop g goal n s = some t → runLoop g goal m s = some t := by
  intro n
  induction n with
  | zero =>
    intro m s t _ h
    simp [runLoop] at h
  | succ k ih =>
    intro m s t hnm h
    obtain ⟨m', rfl⟩ : ∃ m', m = m' + 1 := ⟨m - 1, by omega⟩
    obtain ⟨os, cf, cs, tr⟩ := s
    cases os with
    | nil => rw [runLoop] at h ⊢; exact h
    | cons e rest =>
      rw [runLoop] at h ⊢
      by_cases hgoal : e.2.2 = goal
      · rw [if_pos hgoal] at h ⊢; exact h
      · rw [if_neg hgoal] at h ⊢
        exact ih m' _ t (by omega) h

theorem recon_mono (cf : List (Cell × Cell)) (start : Cell) :
    ∀ (n m : ℕ) (cur : Cell) (acc p : List Cell), n ≤ m →
      recon cf start n cur acc = some p → recon cf start m cur acc = some p := by
  intro n
  induction n with
  | zero =>
    intro m cur acc p _ h
    simp [recon] at h
  | succ k ih =>
    intro m cur acc p hnm h
    obtain ⟨m', rfl⟩ : ∃ m', m = m' + 1 := ⟨m - 1, by omega⟩
    rw [recon] at h ⊢
    by_cases hcur : cur = start
    · rw [if_pos hcur] at h ⊢; exact h
    · rw [if_neg hcur] at h ⊢
      cases hlk : lookupC cf cur with
      | none => rw [hlk] at h; simp at h
      | some q =>
        rw [hlk] at h
        exact ih m' q _ p (by omega) h

theorem finishRun_mono {start goal : Cell} {s : AState} {r : Option (List Cell)}
    {n m : ℕ} (hnm : n ≤ m) (h : finishRun start goal n s = some r) :
    finishRun start goal m s = some r := by
  unfold finishRun at h ⊢
  cases hlk : lookupC s.cameFrom goal with
  | none => rw [hlk] at h; exact h
  | some q =>
    rw [hlk] at h
    cases hrec : recon s.cameFrom start n goal [] with
    | none => rw [hrec] at h; exact absurd h (by simp)
    | some p =>
      rw [hrec] at h
      rw [recon_mono s.cameFrom start n m goal [] p hnm hrec]
      exact h

theorem astarRun_mono {start goal : Cell} {g : Grid} {r : Option (List Cell)}
    {n m : ℕ} (hnm : n ≤ m) (h : astarRun n start goal g = some r) :
    astarRun m start goal g = some r := by
  unfold astarRun at h ⊢
  cases hrun : runLoop g goal n (initState start) with
  | none => rw [hrun] at h; exact absurd h (by simp)
  | some s =>
    rw [hrun] at h
    rw [runLoop_mono g goal n m _ s hnm hrun]
    simp only [Option.some_bind] at h ⊢
    exact finishRun_mono hnm h

/-- C9.  The search is deterministic: any two terminating runs on the same
input return the same result. -/
theorem astar_deterministic (start goal : Cell) (g : Grid)
    (r1 r2 : Option (List Cell)) (h1 : AstarReturns start goal g r1)
    (h2 : AstarReturns start goal g r2) : r1 = r2 := by
  obtain ⟨n, hn⟩ := h1
  obtain ⟨m, hm⟩ := h2
  have e1 : astarRun (max n m) start goal g = some r1 :=
    astarRun_mono (le_max_left n m) hn
  have e2 : astarRun (max n m) start goal g = some r2 :=
    astarRun_mono (le_max_right n m) hm
  rw [e1] at e2
  exact Option.some.inj e2

/-! ## Concrete grids for the concrete facts -/

/-- The 1×1 all-free grid. -/
def gridFree1 : Grid := ⟨1, 1, fun _ _ => 0⟩

/-- The 2×2 all-free grid. -/
def gridFree2 : Grid := ⟨2, 2, fun _ _ => 0⟩

/-- A 2×2 grid whose only obstacle is the cell `(0, 0)`. -/
def gridStartObs : Grid := ⟨2, 2, fun x y => if x = 0 ∧ y = 0 then 1 else 0⟩

/-- A 1×3 grid whose middle cell `(0, 1)` is an obstacle, disconnecting the
two end cells. -/
def gridWall : Grid := ⟨1, 3, fun x y => if x = 0 ∧ y = 1 then 1 else 0⟩

/-- A 2×2 grid whose only obstacle is the cell `(1, 1)`. -/
def gridGoalObs : Grid := ⟨2, 2, fun x y => if x = 1 ∧ y = 1 then 1 else 0⟩

/-! ## C2: characterisation of `get_neighbors` -/

/-- C2.  For an in-bounds cell, `get_neighbors` returns exactly the cells at
one of the eight offsets that are in bounds and hold the value `0`, a
diagonal destination additionally requiring that neither orthogonal
pass-through cell holds the obstacle value `1`. -/
theorem get_neighbors_mem_iff (g : Grid) (x y : ℤ) (p : Cell)
    (hin : inBoundsG g (x, y)) :
    p ∈ get_neighbors (x, y) g ↔
      ∃ d ∈ offsets, p = (x + d.1, y + d.2) ∧ inBoundsG g p ∧
        g.val p.1 p.2 = 0 ∧
        (d.1 ≠ 0 ∧ d.2 ≠ 0 → g.val (x + d.1) y ≠ 1 ∧ g.val x (y + d.2) ≠ 1) := by
  unfold get_neighbors
  rw [List.mem_filterMap]
  constructor
  · rintro ⟨d, hd, hfd⟩
    refine ⟨d, hd, ?_⟩
    dsimp only at hfd
    by_cases hb : inBoundsG g (x + d.1, y + d.2)
    · rw [if_pos hb] at hfd
      by_cases hdiag : d.1 ≠ 0 ∧ d.2 ≠ 0 ∧ (g.val (x + d.1) y = 1 ∨ g.val x (y + d.2) = 1)
      · rw [if_pos hdiag] at hfd
        exact absurd hfd (by simp)
      · rw [if_neg hdiag] at hfd
        by_cases hv : g.val (x + d.1) (y + d.2) = 0
        · rw [if_pos hv] at hfd
          have hp : p = (x + d.1, y + d.2) := (Option.some.inj hfd).symm
          subst hp
          refine ⟨rfl, hb, hv, ?_⟩
          rintro ⟨h1, h2⟩
          constructor
          · intro hc
            exact hdiag ⟨h1, h2, Or.inl hc⟩
          · intro hc
            exact hdiag ⟨h1, h2, Or.inr hc⟩
        · rw [if_neg hv] at hfd
          exact absurd hfd (by simp)
    · rw [if_neg hb] at hfd
      exact absurd hfd (by simp)
  · rintro ⟨d, hd, rfl, hb, hv, himp⟩
    refine ⟨d, hd, ?_⟩
    dsimp only
    dsimp only at hb hv
    rw [if_pos hb]
    have hnot : ¬ (d.1 ≠ 0 ∧ d.2 ≠ 0 ∧ (g.val (x + d.1) y = 1 ∨ g.val x (y + d.2) = 1)) := by
      rintro ⟨h1, h2, hor⟩
      rcases himp ⟨h1, h2⟩ with ⟨hn1, hn2⟩
      rcases hor with h | h
      · exact hn1 h
      · exact hn2 h
    rw [if_neg hnot, if_pos hv]

/-- Witness for C2: the diagonal neighbor of `(0, 0)` on the free 2×2 grid,
obtained through the characterisation. -/
theorem get_neighbors_mem_iff_witness : (1, 1) ∈ get_neighbors (0, 0) gridFree2 :=
  (get_neighbors_mem_iff gridFree2 0 0 (1, 1) (by decide)).mpr
    ⟨(1, 1), by decide, by decide, by decide, by decide, fun _ => ⟨by decide, by decide⟩⟩

/-! ## C10: every grid access of `get_neighbors` is in bounds -/

/-- C10.  For an in-bounds input cell, every read `get_neighbors` performs —
including the two diagonal pass-through reads, which happen after the bounds
check on the destination passed — uses indices that are non-negative and
strictly below the grid dimensions; no read relies on negative-index
wraparound. -/
theorem get_neighbors_reads_in_bounds (g : Grid) (node : Cell)
    (hin : inBoundsG g node) : ∀ r ∈ neighborReads node g, inBoundsG g r := by
  obtain ⟨nx, ny⟩ := node
  intro r hr
  unfold neighborReads at hr
  rw [List.mem_flatMap] at hr
  obtain ⟨d, hd, hr⟩ := hr
  obtain ⟨dx, dy⟩ := d
  dsimp only at hr
  unfold inBoundsG at hin ⊢
  dsimp only at hin
  by_cases hb : inBoundsG g (nx + dx, ny + dy)
  · rw [if_pos hb] at hr
    unfold inBoundsG at hb
    dsimp only at hb
    by_cases hdiag : dx ≠ 0 ∧ dy ≠ 0
    · rw [if_pos hdiag] at hr
      rcases List.mem_cons.mp hr with rfl | hr
      · dsimp only
        omega
      · by_cases hv1 : g.val (nx + dx) ny = 1
        · rw [if_pos hv1] at hr
          exact absurd hr (by simp)
        · rw [if_neg hv1] at hr
          rcases List.mem_cons.mp hr with rfl | hr
          · dsimp only
            omega
          · by_cases hv2 : g.val nx (ny + dy) = 1
            · rw [if_pos hv2] at hr
              exact absurd hr (by simp)
            · rw [if_neg hv2] at hr
              rcases List.mem_singleton.mp hr with rfl
              dsimp only
              omega
    · rw [if_neg hdiag] at hr
      rcases List.mem_singleton.mp hr with rfl
      dsimp only
      omega
  · rw [if_neg hb] at hr
    exact absurd hr (by simp)

/-- Witness for C10: the reads of `get_neighbors` at the centre of a free
3×3 grid are all in bounds. -/
theorem get_neighbors_reads_in_bounds_witness :
    inBoundsG (⟨3, 3, fun _ _ => 0⟩ : Grid) (1, 2) :=
  get_neighbors_reads_in_bounds (⟨3, 3, fun _ _ => 0⟩ : Grid) (1, 1) (by decide)
    (1, 2) (by decide)

/-! ## C3: the start-equals-goal query -/

/-- C3 differs from the code: on `start == goal` the loop breaks at the very
first pop with `came_from` still empty, so the `goal not in came_from` test
fires and `astar` returns `None` instead of the single-cell path the
specification promises. -/
theorem astar_trivial_query_returns_none (c : Cell) (g : Grid) :
    astarRun 1 c c g = some none := by
  unfold astarRun initState runLoop
  rw [if_pos rfl]
  rfl

/-! ## C4: there is no input validation -/

/-- Counterexample for C4: with the start cell sitting on an obstacle the
search is not rejected — it runs and even returns a path, so no distinct
fail-fast invalid-query condition exists. -/
theorem astar_obstacle_start_returns_path :
    gridStartObs.val 0 0 = 1 ∧
      astarRun 3 (0, 0) (1, 1) gridStartObs = some (some [(0, 0), (1, 1)]) :=
  ⟨by decide, by decide⟩

/-- Amended C4: `astar` performs no up-front validation of the query.  For
a query whose start or goal is in bounds but on an obstacle cell, it is not
rejected and no distinct fail-fast InvalidQuery condition exists: the search
runs normally — a start on an obstacle can even produce a path — and an
obstacle (hence unreachable) goal produces the same `None` that signals
no-path.  Out-of-bounds endpoints are likewise not checked by the code, but
lie outside this total-grid embedding: there the source can instead raise on
an out-of-bounds pass-through read during expansion. -/
theorem astar_runs_search_on_invalid_queries :
    (gridStartObs.val 0 0 = 1 ∧
      AstarReturns (0, 0) (1, 1) gridStartObs (some [(0, 0), (1, 1)])) ∧
    (gridGoalObs.val 1 1 = 1 ∧ AstarReturns (0, 0) (1, 1) gridGoalObs none) :=
  ⟨⟨by decide, ⟨3, by decide⟩⟩, ⟨by decide, ⟨4, by decide⟩⟩⟩

/-- Witness for C9: the two concrete runs of the deterministic search on the
free 2×2 grid agree. -/
theorem astar_deterministic_witness :
    (some [(0, 0), (1, 1)] : Option (List Cell)) = some [(0, 0), (1, 1)] :=
  astar_deterministic (0, 0) (1, 1) gridFree2 _ _ ⟨3, by decide⟩ ⟨4, by decide⟩

/-! ## C6: admissibility and consistency of the heuristic -/

/-- One 8-directional move: to one of the eight surrounding cells. -/
def EightDirStep (u v : Cell) : Prop :=
  (v.1 - u.1).natAbs ≤ 1 ∧ (v.2 - u.2).natAbs ≤ 1 ∧ v ≠ u

instance (u v : Cell) : Decidable (EightDirStep u v) :=
  inferInstanceAs (Decidable ((v.1 - u.1).natAbs ≤ 1 ∧ (v.2 - u.2).natAbs ≤ 1 ∧ v ≠ u))

/-- A sequence of 8-directional moves (no grid: the obstacle-free setting). -/
def EightDirPath (p : List Cell) : Prop := List.Chain' EightDirStep p

instance (p : List Cell) : Decidable (EightDirPath p) :=
  inferInstanceAs (Decidable (List.Chain' EightDirStep p))

theorem octR_orth_le {x x' y : ℝ} (h : |x - x'| ≤ 1) :
    x + y + (Real.sqrt 2 - 2) * min x y ≤
      1 + (x' + y + (Real.sqrt 2 - 2) * min x' y) := by
  rw [abs_le] at h
  rcases le_total x y with h1 | h1 <;> rcases le_total x' y with h2 | h2
  · rw [min_eq_left h1, min_eq_left h2]
    nlinarith [one_le_sqrt_two, sqrt_two_le_two]
  · rw [min_eq_left h1, min_eq_right h2]
    nlinarith [one_le_sqrt_two, sqrt_two_le_two]
  · rw [min_eq_right h1, min_eq_left h2]
    nlinarith [one_le_sqrt_two, sqrt_two_le_two]
  · rw [min_eq_right h1, min_eq_right h2]
    nlinarith [one_le_sqrt_two, sqrt_two_le_two]

theorem octR_diag_le {x x' y y' : ℝ} (hx : |x - x'| ≤ 1) (hy : |y - y'| ≤ 1) :
    x + y + (Real.sqrt 2 - 2) * min x y ≤
      Real.sqrt 2 + (x' + y' + (Real.sqrt 2 - 2) * min x' y') := by
  rw [abs_le] at hx hy
  rcases le_total x y with h1 | h1 <;> rcases le_total x' y' with h2 | h2
  · rw [min_eq_left h1, min_eq_left h2]
    nlinarith [one_le_sqrt_two, sqrt_two_le_two]
  · rw [min_eq_left h1, min_eq_right h2]
    nlinarith [one_le_sqrt_two, sqrt_two_le_two]
  · rw [min_eq_right h1, min_eq_left h2]
    nlinarith [one_le_sqrt_two, sqrt_two_le_two]
  · rw [min_eq_right h1, min_eq_right h2]
    nlinarith [one_le_sqrt_two, sqrt_two_le_two]

theorem abs_cast_sub_le_one {i : ℤ} (h : i.natAbs ≤ 1) : |(i : ℝ)| ≤ 1 := by
  have : i = -1 ∨ i = 0 ∨ i = 1 := by omega
  rcases this with h | h | h <;> rw [h] <;> norm_num

/-- Per-step triangle inequality for the octile distance: moving one cell in
any of the eight directions (or not at all) decreases the heuristic by at
most the Euclidean step cost. -/
theorem heuristicR_step (a b c : Cell) (h1 : (b.1 - a.1).natAbs ≤ 1)
    (h2 : (b.2 - a.2).natAbs ≤ 1) :
    heuristicR a c ≤ stepCostR a b + heuristicR b c := by
  have hxx : |((a.1 : ℝ) - c.1) - ((b.1 : ℝ) - c.1)| ≤ 1 := by
    have : ((a.1 : ℝ) - c.1) - ((b.1 : ℝ) - c.1) = -(((b.1 - a.1 : ℤ) : ℝ)) := by
      push_cast
      ring
    rw [this, abs_neg]
    exact abs_cast_sub_le_one h1
  have hyy : |((a.2 : ℝ) - c.2) - ((b.2 : ℝ) - c.2)| ≤ 1 := by
    have : ((a.2 : ℝ) - c.2) - ((b.2 : ℝ) - c.2) = -(((b.2 - a.2 : ℤ) : ℝ)) := by
      push_cast
      ring
    rw [this, abs_neg]
    exact abs_cast_sub_le_one h2
  have hax : abs (|(a.1 : ℝ) - c.1| - |(b.1 : ℝ) - c.1|) ≤ 1 :=
    le_trans (abs_abs_sub_abs_le_abs_sub _ _) hxx
  have hay : abs (|(a.2 : ℝ) - c.2| - |(b.2 : ℝ) - c.2|) ≤ 1 :=
    le_trans (abs_abs_sub_abs_le_abs_sub _ _) hyy
  by_cases hd1 : b.1 - a.1 = 0
  · by_cases hd2 : b.2 - a.2 = 0
    · have hb1 : (b.1 : ℝ) = a.1 := by
        have : b.1 = a.1 := by omega
        exact_mod_cast this
      have hb2 : (b.2 : ℝ) = a.2 := by
        have : b.2 = a.2 := by omega
        exact_mod_cast this
      unfold heuristicR stepCostR
      rw [hb1, hb2]
      have : Real.sqrt (((b.1 - a.1 : ℤ) : ℝ) ^ 2 + ((b.2 - a.2 : ℤ) : ℝ) ^ 2) = 0 := by
        rw [hd1, hd2]
        norm_num
      rw [this]
      linarith
    · -- vertical coordinate changes only: step cost 1
      have hstep : stepCostR a b = 1 := by
        unfold stepCostR
        rw [hd1]
        have : (b.2 - a.2 : ℤ) = -1 ∨ (b.2 - a.2 : ℤ) = 1 := by omega
        rcases this with h | h <;> rw [h] <;> norm_num
      have hb1 : (b.1 : ℝ) = a.1 := by
        have : b.1 = a.1 := by omega
        exact_mod_cast this
      unfold heuristicR
      rw [hstep, hb1]
      have := @octR_orth_le (|(a.2 : ℝ) - c.2|) (|(b.2 : ℝ) - c.2|)
        (|(a.1 : ℝ) - c.1|) hay
      rw [min_comm (|(a.2 : ℝ) - c.2|) (|(a.1 : ℝ) - c.1|)] at this
      rw [min_comm (|(b.2 : ℝ) - c.2|) (|(a.1 : ℝ) - c.1|)] at this
      linarith
  · by_cases hd2 : b.2 - a.2 = 0
    · have hstep : stepCostR a b = 1 := by
        unfold stepCostR
        rw [hd2]
        have : (b.1 - a.1 : ℤ) = -1 ∨ (b.1 - a.1 : ℤ) = 1 := by omega
        rcases this with h | h <;> rw [h] <;> norm_num
      have hb2 : (b.2 : ℝ) = a.2 := by
        have : b.2 = a.2 := by omega
        exact_mod_cast this
      unfold heuristicR
      rw [hstep, hb2]
      have := @octR_orth_le (|(a.1 : ℝ) - c.1|) (|(b.1 : ℝ) - c.1|)
        (|(a.2 : ℝ) - c.2|) hax
      linarith
    · -- diagonal: step cost √2
      have hstep : stepCostR a b = Real.sqrt 2 := by
        unfold stepCostR
        have e1 : (b.1 - a.1 : ℤ) = -1 ∨ (b.1 - a.1 : ℤ) = 1 := by omega
        have e2 : (b.2 - a.2 : ℤ) = -1 ∨ (b.2 - a.2 : ℤ) = 1 := by omega
        rcases e1 with h | h <;> rcases e2 with h' | h' <;> rw [h, h'] <;> norm_num
      unfold heuristicR
      rw [hstep]
      have := @octR_diag_le (|(a.1 : ℝ) - c.1|) (|(b.1 : ℝ) - c.1|)
        (|(a.2 : ℝ) - c.2|) (|(b.2 : ℝ) - c.2|) hax hay
      linarith

theorem heuristicR_self (a : Cell) : heuristicR a a = 0 := by
  unfold heuristicR
  simp

theorem pathCostR_nil : pathCostR [] = 0 := rfl

theorem pathCostR_single (a : Cell) : pathCostR [a] = 0 := rfl

theorem pathCostR_cons_cons (a b : Cell) (rest : List Cell) :
    pathCostR (a :: b :: rest) = stepCostR a b + pathCostR (b :: rest) := rfl

/-- Octile distance bounds the cost of every 8-directional path. -/
theorem heuristicR_le_pathCostR :
    ∀ (p : List Cell) (a b : Cell), EightDirPath p → p.head? = some a →
      p.getLast? = some b → heuristicR a b ≤ pathCostR p
  | [], a, b => by
    intro _ hh _
    simp at hh
  | [u], a, b => by
    intro _ hh hl
    simp at hh hl
    rw [← hh, ← hl, pathCostR_single, heuristicR_self]
  | u :: v :: rest, a, b => by
    intro hch hh hl
    have ha : u = a := by simpa using hh
    have hl' : (v :: rest).getLast? = some b := by
      rw [← hl, List.getLast?_cons_cons]
    have hch' : EightDirPath (v :: rest) := (List.chain'_cons.mp hch).2
    have hstep : EightDirStep u v := (List.chain'_cons.mp hch).1
    have ih := heuristicR_le_pathCostR (v :: rest) v b hch' (by simp) hl'
    have htri := heuristicR_step u v b hstep.1 hstep.2.1
    rw [pathCostR_cons_cons, ← ha]
    linarith

/-- C6.  The heuristic is admissible — `heuristic(a, b)` is at most the cost
of every 8-directional path from `a` to `b`, hence at most the true minimum
cost on an obstacle-free grid — and consistent: it satisfies the triangle
inequality with respect to the Euclidean per-step costs. -/
theorem heuristic_admissible_consistent :
    (∀ (a b : Cell) (p : List Cell), EightDirPath p → p.head? = some a →
        p.getLast? = some b → valW (heuristic a b) ≤ pathCostR p) ∧
    (∀ (a b c : Cell), EightDirStep a b →
        valW (heuristic a c) ≤ stepCostR a b + valW (heuristic b c)) := by
  constructor
  · intro a b p hp hh hl
    rw [valW_heuristic]
    exact heuristicR_le_pathCostR p a b hp hh hl
  · intro a b c hs
    rw [valW_heuristic, valW_heuristic]
    exact heuristicR_step a b c hs.1 hs.2.1

/-- Witness for C6: the heuristic bounds the cost of the concrete diagonal
path `[(0,0), (1,1)]`, and the triangle inequality holds at a concrete
step. -/
theorem heuristic_admissible_consistent_witness :
    valW (heuristic (0, 0) (1, 1)) ≤ pathCostR [(0, 0), (1, 1)] ∧
      valW (heuristic (0, 0) (2, 2)) ≤
        stepCostR (0, 0) (1, 1) + valW (heuristic (1, 1) (2, 2)) :=
  ⟨heuristic_admissible_consistent.1 (0, 0) (1, 1) [(0, 0), (1, 1)]
      (List.chain'_pair.mpr (by decide)) (by decide) (by decide),
    heuristic_admissible_consistent.2 (0, 0) (1, 1) (2, 2) (by decide)⟩

/-! ## Structural facts about neighbors and step costs -/

theorem offsets_spec : ∀ d ∈ offsets, d.1.natAbs ≤ 1 ∧ d.2.natAbs ≤ 1 ∧ ¬(d.1 = 0 ∧ d.2 = 0) := by
  decide

/-- Any returned neighbor is one cell away, distinct, in bounds and free. -/
theorem get_neighbors_spec {n c : Cell} {g : Grid} (h : n ∈ get_neighbors c g) :
    (n.1 - c.1).natAbs ≤ 1 ∧ (n.2 - c.2).natAbs ≤ 1 ∧ n ≠ c ∧ inBoundsG g n ∧
      g.val n.1 n.2 = 0 := by
  unfold get_neighbors at h
  rw [List.mem_filterMap] at h
  obtain ⟨d, hd, hfd⟩ := h
  obtain ⟨hd1, hd2, hd0⟩ := offsets_spec d hd
  by_cases hb : inBoundsG g (c.1 + d.1, c.2 + d.2)
  · rw [if_pos hb] at hfd
    by_cases hdiag : d.1 ≠ 0 ∧ d.2 ≠ 0 ∧ (g.val (c.1 + d.1) c.2 = 1 ∨ g.val c.1 (c.2 + d.2) = 1)
    · rw [if_pos hdiag] at hfd
      exact absurd hfd (by simp)
    · rw [if_neg hdiag] at hfd
      by_cases hv : g.val (c.1 + d.1) (c.2 + d.2) = 0
      · rw [if_pos hv] at hfd
        have hn : n = (c.1 + d.1, c.2 + d.2) := (Option.some.inj hfd).symm
        subst hn
        refine ⟨by dsimp only; omega, by dsimp only; omega, ?_, hb, hv⟩
        intro hc
        rw [Prod.ext_iff] at hc
        dsimp only at hc
        exact hd0 ⟨by omega, by omega⟩
      · rw [if_neg hv] at hfd
        exact absurd hfd (by simp)
  · rw [if_neg hb] at hfd
    exact absurd hfd (by simp)

/-- The step cost to a neighbor is `1` or `√2` in exact form. -/
theorem moveCost_of_neighbor {n c : Cell} {g : Grid} (h : n ∈ get_neighbors c g) :
    moveCost c n = (1, 0) ∨ moveCost c n = (0, 1) := by
  obtain ⟨h1, h2, hne, -, -⟩ := get_neighbors_spec h
  have e1 : n.1 - c.1 = -1 ∨ n.1 - c.1 = 0 ∨ n.1 - c.1 = 1 := by omega
  have e2 : n.2 - c.2 = -1 ∨ n.2 - c.2 = 0 ∨ n.2 - c.2 = 1 := by omega
  have hne' : ¬(n.1 - c.1 = 0 ∧ n.2 - c.2 = 0) := by
    intro hc
    apply hne
    rw [Prod.ext_iff]
    omega
  unfold moveCost
  rcases e1 with h | h | h <;> rcases e2 with h' | h' | h' <;> rw [h, h'] <;> norm_num
  exact absurd ⟨h, h'⟩ hne'

theorem one_le_valW_moveCost {n c : Cell} {g : Grid} (h : n ∈ get_neighbors c g) :
    1 ≤ valW (moveCost c n) := by
  rcases moveCost_of_neighbor h with hm | hm <;> rw [hm] <;> unfold valW
  · norm_num
  · simp only [Nat.cast_zero, Nat.cast_one, one_mul, zero_add]
    exact one_le_sqrt_two

theorem ltW_addW_of_one_le {w m : W} (h : 1 ≤ valW m) : ltW w (addW w m) := by
  rw [ltW_iff, valW_addW]
  linarith

theorem heuristic_self (c : Cell) : heuristic c c = (0, 0) := by
  unfold heuristic
  simp

theorem addW_zero_right (w : W) : addW w (0, 0) = w := by
  unfold addW
  simp

theorem not_ltW_zero (w : W) : ¬ ltW w (0, 0) := by
  rw [ltW_iff, valW_zero]
  exact not_lt.mpr (valW_nonneg w)

theorem stepCostR_nonneg (a b : Cell) : 0 ≤ stepCostR a b :=
  Real.sqrt_nonneg _

theorem pathCostR_nonneg : ∀ p : List Cell, 0 ≤ pathCostR p
  | [] => le_refl 0
  | [_] => le_refl 0
  | a :: b :: rest => by
    rw [pathCostR_cons_cons]
    have := pathCostR_nonneg (b :: rest)
    have := stepCostR_nonneg a b
    linarith

/-- A legal grid path is in particular a sequence of 8-directional moves. -/
theorem isPathList_eightDirPath {g : Grid} {p : List Cell} (h : IsPathList g p) :
    EightDirPath p := by
  unfold IsPathList at h
  unfold EightDirPath
  refine List.Chain'.imp ?_ h
  intro a b hab
  obtain ⟨h1, h2, hne, -, -⟩ := get_neighbors_spec hab
  exact ⟨h1, h2, hne⟩

theorem entryLe_priority_leW {e f : Entry} (h : entryLe e f) : leW e.1 f.1 := by
  rcases h with h | ⟨hp, -⟩
  · exact leW_of_ltW h
  · rw [hp]
    exact leW_refl _

/-- Step cost of a neighbor move in exact form equals the real formula. -/
theorem valW_moveCost_of_neighbor {n c : Cell} {g : Grid} (h : n ∈ get_neighbors c g) :
    valW (moveCost c n) = stepCostR c n := by
  obtain ⟨h1, h2, -, -, -⟩ := get_neighbors_spec h
  exact valW_moveCost h1 h2

/-! ## Search invariants

The loop invariants of `astar`.  All dictionaries and the frontier are tied
together: every open entry's node has a recorded cost at most the entry's
cost; every recorded cost has a matching entry in the frontier or the pop
trace; an expanded (popped, non-goal) entry has offered each neighbor the
corresponding relaxation; predecessor links are legal moves that strictly
decrease the recorded cost; and the goal is popped at most once, as the last
pop. -/

/-- Recorded costs bound the open entries from below. -/
def EntryCostInv (s : AState) : Prop :=
  ∀ e ∈ s.openSet, ∃ w, lookupC s.costSoFar e.2.2 = some w ∧ leW w e.2.1

/-- Every recorded cost has a matching entry among the pushes (open or popped). -/
def RecordedEntryInv (s : AState) : Prop :=
  ∀ c w, lookupC s.costSoFar c = some w →
    ∃ pr, (((pr, w, c) : Entry) ∈ s.openSet ∨ ((pr, w, c) : Entry) ∈ s.trace)

/-- Every popped non-goal entry has been expanded: each of its neighbors has
a recorded cost at most the entry's cost plus the step cost. -/
def TraceExpandedInv (g : Grid) (goal : Cell) (s : AState) : Prop :=
  ∀ e ∈ s.trace, e.2.2 ≠ goal →
    ∀ n ∈ get_neighbors e.2.2 g, ∃ w, lookupC s.costSoFar n = some w ∧
      leW w (addW e.2.1 (moveCost e.2.2 n))

/-- The goal has not been popped (the loop would have stopped). -/
def GoalNotPoppedInv (goal : Cell) (s : AState) : Prop :=
  ∀ e ∈ s.trace, e.2.2 ≠ goal

/-- Predecessor links are legal moves that strictly increase recorded cost
along the link (parent plus step bounds the child). -/
def ParentInv (g : Grid) (s : AState) : Prop :=
  ∀ n p, lookupC s.cameFrom n = some p →
    n ∈ get_neighbors p g ∧
    ∃ wn wp, lookupC s.costSoFar n = some wn ∧ lookupC s.costSoFar p = some wp ∧
      leW (addW wp (moveCost p n)) wn

/-- Away from the start, the two dictionaries have the same keys. -/
def KeyLinkInv (start : Cell) (s : AState) : Prop :=
  ∀ c, c ≠ start → ((lookupC s.costSoFar c).isSome ↔ (lookupC s.cameFrom c).isSome)

/-- Every open entry's priority is its cost plus the heuristic to the goal —
except the seed entry `(0, 0, start)`, pushed with priority `0`. -/
def PriorityInv (start goal : Cell) (s : AState) : Prop :=
  ∀ e ∈ s.openSet, e.1 = addW e.2.1 (heuristic e.2.2 goal) ∨
    e = (((0, 0) : W), ((0, 0) : W), start)

/-- Recorded cells are the start or in bounds. -/
def KeysBoundInv (g : Grid) (start : Cell) (s : AState) : Prop :=
  ∀ c, (lookupC s.costSoFar c).isSome → c = start ∨ inBoundsG g c

/-- Recorded cells are reachable from the start by a legal path. -/
def ReachInv (g : Grid) (start : Cell) (s : AState) : Prop :=
  ∀ c, (lookupC s.costSoFar c).isSome → ∃ p, PathFromTo g start c p

/-- The conjunction of all loop invariants. -/
structure AInv (g : Grid) (start goal : Cell) (s : AState) : Prop where
  sorted : List.Sorted entryLe s.openSet
  entryCost : EntryCostInv s
  recorded : RecordedEntryInv s
  traceExp : TraceExpandedInv g goal s
  goalNot : GoalNotPoppedInv goal s
  parent : ParentInv g s
  startCost : lookupC s.costSoFar start = some (0, 0)
  startNoParent : lookupC s.cameFrom start = none
  keyLink : KeyLinkInv start s
  priority : PriorityInv start goal s
  keysBound : KeysBoundInv g start s
  reach : ReachInv g start s

/-- Pointwise decrease of the cost table between two states. -/
def CostMono (s s' : AState) : Prop :=
  ∀ c w, lookupC s.costSoFar c = some w →
    ∃ w', lookupC s'.costSoFar c = some w' ∧ leW w' w

theorem costMono_refl (s : AState) : CostMono s s :=
  fun _ w h => ⟨w, h, leW_refl w⟩

theorem costMono_trans {s t u : AState} (h1 : CostMono s t) (h2 : CostMono t u) :
    CostMono s u := by
  intro c w hw
  obtain ⟨w', hw', hle'⟩ := h1 c w hw
  obtain ⟨w'', hw'', hle''⟩ := h2 c w' hw'
  exact ⟨w'', hw'', leW_trans hle'' hle'⟩

theorem lookupC_singleton {β : Type} (k : Cell) (b : β) (c : Cell) :
    lookupC [(k, b)] c = if k = c then some b else none := by
  rw [lookupC_cons, lookupC_nil]

/-- The invariants hold in the initial state. -/
theorem inv_init (g : Grid) (start goal : Cell) : AInv g start goal (initState start) := by
  have hlk : ∀ c, lookupC (initState start).costSoFar c =
      if start = c then some ((0, 0) : W) else none := by
    intro c
    exact lookupC_singleton start (0, 0) c
  refine ⟨?_, ?_, ?_, ?_, ?_, ?_, ?_, ?_, ?_, ?_, ?_, ?_⟩
  · exact List.sorted_singleton _
  · intro e he
    rcases List.mem_singleton.mp he with rfl
    refine ⟨(0, 0), ?_, leW_refl _⟩
    rw [hlk, if_pos rfl]
  · intro c w hw
    rw [hlk] at hw
    by_cases hc : start = c
    · rw [if_pos hc] at hw
      refine ⟨(0, 0), Or.inl ?_⟩
      rcases hc with rfl
      rcases Option.some.inj hw with rfl
      exact List.mem_singleton.mpr rfl
    · rw [if_neg hc] at hw
      exact absurd hw (by simp)
  · intro e he
    exact absurd he (by simp [initState])
  · intro e he
    exact absurd he (by simp [initState])
  · intro n p hp
    exact absurd hp (by simp [initState, lookupC_nil])
  · rw [hlk, if_pos rfl]
  · rfl
  · intro c hc
    constructor
    · intro hs
      rw [hlk, if_neg (fun h => hc h.symm)] at hs
      simp at hs
    · intro hs
      rw [show (initState start).cameFrom = [] from rfl, lookupC_nil] at hs
      simp at hs
  · intro e he
    rcases List.mem_singleton.mp he with rfl
    exact Or.inr rfl
  · intro c hc
    rw [hlk] at hc
    by_cases h : start = c
    · exact Or.inl h.symm
    · rw [if_neg h] at hc
      simp at hc
  · intro c hc
    rw [hlk] at hc
    by_cases h : start = c
    · rcases h with rfl
      exact ⟨[start], List.chain'_singleton _, rfl, rfl⟩
    · rw [if_neg h] at hc
      simp at hc

/-! ### Effect of one neighbor relaxation -/

theorem bool_eq_false_of_ne_true {b : Bool} (h : ¬ b = true) : b = false := by
  cases b
  · rfl
  · exact absurd rfl h

theorem improvesB_true_elim {cs : List (Cell × W)} {n : Cell} {w : W}
    (h : improvesB cs n w = true) :
    lookupC cs n = none ∨ ∃ old, lookupC cs n = some old ∧ ltW w old := by
  unfold improvesB at h
  cases hlk : lookupC cs n with
  | none => exact Or.inl rfl
  | some old =>
    rw [hlk] at h
    simp only at h
    exact Or.inr ⟨old, rfl, of_decide_eq_true h⟩

theorem improvesB_false_elim {cs : List (Cell × W)} {n : Cell} {w : W}
    (h : improvesB cs n w = false) :
    ∃ old, lookupC cs n = some old ∧ ¬ ltW w old := by
  unfold improvesB at h
  cases hlk : lookupC cs n with
  | none =>
    rw [hlk] at h
    simp at h
  | some old =>
    rw [hlk] at h
    simp only at h
    exact ⟨old, rfl, of_decide_eq_false h⟩

theorem processNeighbor_trace (goal cur : Cell) (cc : W) (s : AState) (n : Cell) :
    (processNeighbor goal cur cc s n).trace = s.trace := by
  unfold processNeighbor
  split <;> rfl

theorem processNeighbor_openMem (goal cur : Cell) (cc : W) (s : AState) (n : Cell)
    {x : Entry} (hx : x ∈ s.openSet) : x ∈ (processNeighbor goal cur cc s n).openSet := by
  unfold processNeighbor
  split
  · exact mem_heapPush.mpr (Or.inr hx)
  · exact hx

theorem processNeighbor_mono (goal cur : Cell) (cc : W) (s : AState) (n : Cell) :
    CostMono s (processNeighbor goal cur cc s n) := by
  intro c w hw
  by_cases himp : improvesB s.costSoFar n (addW cc (moveCost cur n)) = true
  · unfold processNeighbor
    rw [if_pos himp]
    by_cases hc : c = n
    · rcases hc with rfl
      rcases improvesB_true_elim himp with hnone | ⟨old, hold, hlt⟩
      · rw [hw] at hnone
        exact absurd hnone (by simp)
      · rw [hw] at hold
        rcases Option.some.inj hold with rfl
        exact ⟨addW cc (moveCost cur c), lookupC_insertC_self _ _ _, leW_of_ltW hlt⟩
    · exact ⟨w, by rw [lookupC_insertC_ne _ _ hc]; exact hw, leW_refl w⟩
  · unfold processNeighbor
    rw [if_neg himp]
    exact ⟨w, hw, leW_refl w⟩

theorem processNeighbor_post (goal cur : Cell) (cc : W) (s : AState) (n : Cell) :
    ∃ w, lookupC (processNeighbor goal cur cc s n).costSoFar n = some w ∧
      leW w (addW cc (moveCost cur n)) := by
  by_cases himp : improvesB s.costSoFar n (addW cc (moveCost cur n)) = true
  · unfold processNeighbor
    rw [if_pos himp]
    exact ⟨addW cc (moveCost cur n), lookupC_insertC_self _ _ _, leW_refl _⟩
  · unfold processNeighbor
    rw [if_neg himp]
    obtain ⟨old, hold, hnlt⟩ := improvesB_false_elim (bool_eq_false_of_ne_true himp)
    exact ⟨old, hold, hnlt⟩

/-- The invariants maintained through the neighbor loop of one expansion
(everything in `AInv` except the two trace conditions, which are
re-established only once the expansion completes). -/
structure MidInv (g : Grid) (start goal : Cell) (s : AState) : Prop where
  sorted : List.Sorted entryLe s.openSet
  entryCost : EntryCostInv s
  recorded : RecordedEntryInv s
  parent : ParentInv g s
  startCost : lookupC s.costSoFar start = some (0, 0)
  startNoParent : lookupC s.cameFrom start = none
  keyLink : KeyLinkInv start s
  priority : PriorityInv start goal s
  keysBound : KeysBoundInv g start s
  reach : ReachInv g start s

theorem isSome_of_lookup {β : Type} {l : List (Cell × β)} {c : Cell} {b : β}
    (h : lookupC l c = some b) : (lookupC l c).isSome := by
  rw [h]
  rfl

/-- Appending a legal move to a legal path. -/
theorem pathFromTo_step {g : Grid} {s c n : Cell} {p : List Cell}
    (hp : PathFromTo g s c p) (hn : n ∈ get_neighbors c g) :
    PathFromTo g s n (p ++ [n]) := by
  obtain ⟨hchain, hhead, hlast⟩ := hp
  refine ⟨?_, ?_, ?_⟩
  · unfold IsPathList at hchain ⊢
    rw [List.chain'_append]
    refine ⟨hchain, List.chain'_singleton _, ?_⟩
    intro x hx y hy
    simp only [List.head?_cons, Option.mem_def, Option.some.injEq] at hy
    rw [hlast] at hx
    simp only [Option.mem_def, Option.some.injEq] at hx
    rw [← hy, ← hx]
    exact hn
  · cases p with
    | nil => simp at hhead
    | cons a t =>
      simp only [List.head?_cons, Option.some.injEq] at hhead
      simp only [List.cons_append, List.head?_cons, hhead]
  · exact List.getLast?_concat _

/-- One neighbor relaxation preserves the mid-expansion invariants. -/
theorem processNeighbor_preserves (g : Grid) (start goal cur : Cell) (cc : W)
    (s : AState) (n : Cell) (hn : n ∈ get_neighbors cur g)
    (hcur : ∃ w, lookupC s.costSoFar cur = some w ∧ leW w cc)
    (hI : MidInv g start goal s) :
    MidInv g start goal (processNeighbor goal cur cc s n) := by
  by_cases himp : improvesB s.costSoFar n (addW cc (moveCost cur n)) = true
  case neg =>
    unfold processNeighbor
    rw [if_neg himp]
    exact hI
  case pos =>
  have hopen : (processNeighbor goal cur cc s n).openSet =
      heapPush (addW (addW cc (moveCost cur n)) (heuristic n goal),
        addW cc (moveCost cur n), n) s.openSet := by
    unfold processNeighbor
    rw [if_pos himp]
  have hcf : (processNeighbor goal cur cc s n).cameFrom = insertC s.cameFrom n cur := by
    unfold processNeighbor
    rw [if_pos himp]
  have hcs : (processNeighbor goal cur cc s n).costSoFar =
      insertC s.costSoFar n (addW cc (moveCost cur n)) := by
    unfold processNeighbor
    rw [if_pos himp]
  have hm : CostMono s (processNeighbor goal cur cc s n) :=
    processNeighbor_mono goal cur cc s n
  have hne_cur : n ≠ cur := (get_neighbors_spec hn).2.2.1
  have hne_start : n ≠ start := by
    intro hns
    rcases improvesB_true_elim himp with hnone | ⟨old, hold, hlt⟩
    · rw [hns, hI.startCost] at hnone
      exact absurd hnone (by simp)
    · rw [hns, hI.startCost] at hold
      rcases Option.some.inj hold with rfl
      exact not_ltW_zero _ hlt
  obtain ⟨wc, hwc, hwcle⟩ := hcur
  refine ⟨?_, ?_, ?_, ?_, ?_, ?_, ?_, ?_, ?_, ?_⟩
  · rw [hopen]
    exact sorted_heapPush _ hI.sorted
  · intro e he
    rw [hopen] at he
    rcases mem_heapPush.mp he with rfl | he'
    · rw [hcs]
      exact ⟨addW cc (moveCost cur n), lookupC_insertC_self _ _ _, leW_refl _⟩
    · obtain ⟨w, hw, hle⟩ := hI.entryCost e he'
      obtain ⟨w', hw', hle'⟩ := hm e.2.2 w hw
      exact ⟨w', hw', leW_trans hle' hle⟩
  · intro c w hw
    rw [hcs] at hw
    by_cases hc : c = n
    · rcases hc with rfl
      rw [lookupC_insertC_self] at hw
      rcases Option.some.inj hw with rfl
      refine ⟨addW (addW cc (moveCost cur c)) (heuristic c goal), Or.inl ?_⟩
      rw [hopen]
      exact mem_heapPush.mpr (Or.inl rfl)
    · rw [lookupC_insertC_ne _ _ hc] at hw
      obtain ⟨pr, hor⟩ := hI.recorded c w hw
      refine ⟨pr, ?_⟩
      rcases hor with h | h
      · refine Or.inl ?_
        rw [hopen]
        exact mem_heapPush.mpr (Or.inr h)
      · refine Or.inr ?_
        rw [processNeighbor_trace]
        exact h
  · intro m p hp
    rw [hcf] at hp
    by_cases hmn : m = n
    · rcases hmn with rfl
      rw [lookupC_insertC_self] at hp
      rcases Option.some.inj hp with rfl
      refine ⟨hn, addW cc (moveCost cur m), wc, ?_, ?_, ?_⟩
      · rw [hcs]
        exact lookupC_insertC_self _ _ _
      · rw [hcs, lookupC_insertC_ne _ _ hne_cur.symm]
        exact hwc
      · exact addW_leW_addW hwcle (leW_refl _)
    · rw [lookupC_insertC_ne _ _ hmn] at hp
      obtain ⟨hleg, wn, wp, hwn, hwp, hineq⟩ := hI.parent m p hp
      obtain ⟨wp', hwp', hlep'⟩ := hm p wp hwp
      refine ⟨hleg, wn, wp', ?_, hwp', ?_⟩
      · rw [hcs, lookupC_insertC_ne _ _ hmn]
        exact hwn
      · exact leW_trans (addW_leW_addW hlep' (leW_refl _)) hineq
  · rw [hcs, lookupC_insertC_ne _ _ (fun h => hne_start h.symm)]
    exact hI.startCost
  · rw [hcf, lookupC_insertC_ne _ _ (fun h => hne_start h.symm)]
    exact hI.startNoParent
  · intro c hc
    by_cases hcn : c = n
    · rcases hcn with rfl
      rw [hcs, hcf]
      constructor
      · intro _
        exact isSome_of_lookup (lookupC_insertC_self _ _ _)
      · intro _
        exact isSome_of_lookup (lookupC_insertC_self _ _ _)
    · rw [hcs, hcf, lookupC_insertC_ne _ _ hcn, lookupC_insertC_ne _ _ hcn]
      exact hI.keyLink c hc
  · intro e he
    rw [hopen] at he
    rcases mem_heapPush.mp he with rfl | he'
    · exact Or.inl rfl
    · exact hI.priority e he'
  · intro c hc
    rw [hcs] at hc
    by_cases hcn : c = n
    · rcases hcn with rfl
      exact Or.inr (get_neighbors_spec hn).2.2.2.1
    · rw [lookupC_insertC_ne _ _ hcn] at hc
      exact hI.keysBound c hc
  · intro c hc
    rw [hcs] at hc
    by_cases hcn : c = n
    · rcases hcn with rfl
      obtain ⟨p, hp⟩ := hI.reach cur (isSome_of_lookup hwc)
      exact ⟨p ++ [c], pathFromTo_step hp hn⟩
    · rw [lookupC_insertC_ne _ _ hcn] at hc
      exact hI.reach c hc

/-- Combined specification of the neighbor loop (`foldl` over the popped
cell's neighbor list): invariants are preserved, recorded costs only
decrease, the trace is untouched, open entries persist, and afterwards each
neighbor's recorded cost is at most the popped cost plus the step cost. -/
theorem foldl_process_spec (g : Grid) (start goal cur : Cell) (cc : W) :
    ∀ (l : List Cell) (s : AState), (∀ n ∈ l, n ∈ get_neighbors cur g) →
      (∃ w, lookupC s.costSoFar cur = some w ∧ leW w cc) →
      MidInv g start goal s →
      MidInv g start goal (List.foldl (processNeighbor goal cur cc) s l) ∧
      CostMono s (List.foldl (processNeighbor goal cur cc) s l) ∧
      (List.foldl (processNeighbor goal cur cc) s l).trace = s.trace ∧
      (∀ x ∈ s.openSet, x ∈ (List.foldl (processNeighbor goal cur cc) s l).openSet) ∧
      (∀ n ∈ l, ∃ w,
        lookupC (List.foldl (processNeighbor goal cur cc) s l).costSoFar n = some w ∧
          leW w (addW cc (moveCost cur n)))
  | [], s => by
    intro _ _ hI
    refine ⟨hI, costMono_refl s, rfl, fun x hx => hx, ?_⟩
    intro n hn
    exact absurd hn (by simp)
  | n :: l', s => by
    intro hsub hcur hI
    have hn : n ∈ get_neighbors cur g := hsub n (List.mem_cons_self n l')
    have hstep : CostMono s (processNeighbor goal cur cc s n) :=
      processNeighbor_mono goal cur cc s n
    have hcur1 : ∃ w, lookupC (processNeighbor goal cur cc s n).costSoFar cur = some w ∧
        leW w cc := by
      obtain ⟨w, hw, hle⟩ := hcur
      obtain ⟨w', hw', hle'⟩ := hstep cur w hw
      exact ⟨w', hw', leW_trans hle' hle⟩
    have hI1 : MidInv g start goal (processNeighbor goal cur cc s n) :=
      processNeighbor_preserves g start goal cur cc s n hn hcur hI
    obtain ⟨hIf, hmono1, htr1, hop1, hpost1⟩ :=
      foldl_process_spec g start goal cur cc l' (processNeighbor goal cur cc s n)
        (fun m hm => hsub m (List.mem_cons_of_mem n hm)) hcur1 hI1
    rw [List.foldl_cons]
    refine ⟨hIf, costMono_trans hstep hmono1, ?_, ?_, ?_⟩
    · rw [htr1, processNeighbor_trace]
    · intro x hx
      exact hop1 x (processNeighbor_openMem goal cur cc s n hx)
    · intro m hm
      rcases List.mem_cons.mp hm with rfl | hm'
      · obtain ⟨w, hw, hle⟩ := processNeighbor_post goal cur cc s m
        obtain ⟨w', hw', hle'⟩ := hmono1 m w hw
        exact ⟨w', hw', leW_trans hle' hle⟩
      · exact hpost1 m hm'

/-- Expanding a popped non-goal entry from an invariant state re-establishes
the full invariant, and costs only decrease. -/
theorem expand_preserves (g : Grid) (start goal : Cell) (e : Entry)
    (rest : List Entry) (cf : List (Cell × Cell)) (cs : List (Cell × W))
    (tr : List Entry) (hI : AInv g start goal ⟨e :: rest, cf, cs, tr⟩)
    (hgoal : e.2.2 ≠ goal) :
    AInv g start goal (expand g goal e ⟨rest, cf, cs, e :: tr⟩) ∧
      CostMono ⟨e :: rest, cf, cs, tr⟩ (expand g goal e ⟨rest, cf, cs, e :: tr⟩) := by
  have hmid : MidInv g start goal ⟨rest, cf, cs, e :: tr⟩ := by
    refine ⟨(List.sorted_cons.mp hI.sorted).2, ?_, ?_, hI.parent, hI.startCost,
      hI.startNoParent, hI.keyLink, ?_, hI.keysBound, hI.reach⟩
    · intro e' he'
      exact hI.entryCost e' (List.mem_cons_of_mem e he')
    · intro c w hw
      obtain ⟨pr, hor⟩ := hI.recorded c w hw
      refine ⟨pr, ?_⟩
      rcases hor with h | h
      · rcases List.mem_cons.mp h with he | he
        · exact Or.inr (he ▸ List.mem_cons_self _ _)
        · exact Or.inl he
      · exact Or.inr (List.mem_cons_of_mem e h)
    · intro e' he'
      exact hI.priority e' (List.mem_cons_of_mem e he')
  have hcur : ∃ w, lookupC (cs : List (Cell × W)) e.2.2 = some w ∧ leW w e.2.1 :=
    hI.entryCost e (List.mem_cons_self e rest)
  obtain ⟨hIf, hmono, htr, hop, hpost⟩ :=
    foldl_process_spec g start goal e.2.2 e.2.1 (get_neighbors e.2.2 g)
      ⟨rest, cf, cs, e :: tr⟩ (fun m hm => hm) hcur hmid
  unfold expand
  constructor
  · refine ⟨hIf.sorted, hIf.entryCost, hIf.recorded, ?_, ?_, hIf.parent, hIf.startCost,
      hIf.startNoParent, hIf.keyLink, hIf.priority, hIf.keysBound, hIf.reach⟩
    · intro e' he' hne n hn
      rw [htr] at he'
      rcases List.mem_cons.mp he' with rfl | he''
      · exact hpost n hn
      · obtain ⟨w, hw, hle⟩ := hI.traceExp e' he'' hne n hn
        obtain ⟨w', hw', hle'⟩ := hmono n w hw
        exact ⟨w', hw', leW_trans hle' hle⟩
    · intro e' he'
      rw [htr] at he'
      rcases List.mem_cons.mp he' with rfl | he''
      · exact hgoal
      · exact hI.goalNot e' he''
  · exact hmono

/-- Classification of the state the main loop exits in: either the frontier
was exhausted (all invariants intact, goal never popped), or the goal was
popped on the final iteration from an invariant state. -/
def LoopExit (g : Grid) (start goal : Cell) (t : AState) : Prop :=
  (t.openSet = [] ∧ AInv g start goal t) ∨
  (∃ e tr', e.2.2 = goal ∧ t.trace = e :: tr' ∧
    AInv g start goal ⟨e :: t.openSet, t.cameFrom, t.costSoFar, tr'⟩)

theorem runLoop_exit (g : Grid) (start goal : Cell) :
    ∀ (n : ℕ) (s t : AState), AInv g start goal s →
      runLoop g goal n s = some t → LoopExit g start goal t ∧ CostMono s t := by
  intro n
  induction n with
  | zero =>
    intro s t _ h
    simp [runLoop] at h
  | succ k ih =>
    intro s t hI h
    obtain ⟨os, cf, cs, tr⟩ := s
    cases os with
    | nil =>
      rw [runLoop] at h
      rcases Option.some.inj h with rfl
      exact ⟨Or.inl ⟨rfl, hI⟩, costMono_refl _⟩
    | cons e rest =>
      rw [runLoop] at h
      by_cases hgoal : e.2.2 = goal
      · rw [if_pos hgoal] at h
        rcases Option.some.inj h with rfl
        refine ⟨Or.inr ⟨e, tr, hgoal, rfl, hI⟩, ?_⟩
        intro c w hw
        exact ⟨w, hw, leW_refl w⟩
      · rw [if_neg hgoal] at h
        obtain ⟨hI', hmono'⟩ := expand_preserves g start goal e rest cf cs tr hI hgoal
        obtain ⟨hexit, hmono''⟩ := ih _ t hI' h
        exact ⟨hexit, costMono_trans hmono' hmono''⟩

/-! ## Path reconstruction -/

/-- Reconstruction produces a legal path from `start` that continues the
accumulator. -/
theorem recon_spec (g : Grid) (cf : List (Cell × Cell)) (start : Cell)
    (hleg : ∀ n p, lookupC cf n = some p → n ∈ get_neighbors p g) :
    ∀ (k : ℕ) (c : Cell) (acc p : List Cell),
      recon cf start k c acc = some p → IsPathList g (c :: acc) →
      IsPathList g p ∧ p.head? = some start ∧ p.getLast? = (c :: acc).getLast? := by
  intro k
  induction k with
  | zero =>
    intro c acc p h
    simp [recon] at h
  | succ k ih =>
    intro c acc p h hch
    rw [recon] at h
    by_cases hc : c = start
    · rw [if_pos hc] at h
      rcases Option.some.inj h with rfl
      rcases hc with rfl
      exact ⟨hch, by simp, rfl⟩
    · rw [if_neg hc] at h
      cases hlk : lookupC cf c with
      | none =>
        rw [hlk] at h
        simp at h
      | some q =>
        rw [hlk] at h
        have hch' : IsPathList g (q :: c :: acc) := by
          unfold IsPathList at hch ⊢
          exact List.chain'_cons.mpr ⟨hleg c q hlk, hch⟩
        obtain ⟨hp, hh, hl⟩ := ih q (c :: acc) p h hch'
        refine ⟨hp, hh, ?_⟩
        rw [hl, List.getLast?_cons_cons]

/-- The reconstructed path costs at most the recorded cost of the cell it
starts from (plus the cost of the accumulator part). -/
theorem recon_cost (g : Grid) (cf : List (Cell × Cell)) (cs : List (Cell × W))
    (start : Cell)
    (hpar : ∀ n p, lookupC cf n = some p → n ∈ get_neighbors p g ∧
      ∃ wn wp, lookupC cs n = some wn ∧ lookupC cs p = some wp ∧
        leW (addW wp (moveCost p n)) wn) :
    ∀ (k : ℕ) (c : Cell) (acc p : List Cell) (w : W),
      recon cf start k c acc = some p → lookupC cs c = some w →
      pathCostR p ≤ valW w + pathCostR (c :: acc) := by
  intro k
  induction k with
  | zero =>
    intro c acc p w h
    simp [recon] at h
  | succ k ih =>
    intro c acc p w h hw
    rw [recon] at h
    by_cases hc : c = start
    · rw [if_pos hc] at h
      rcases Option.some.inj h with rfl
      rcases hc with rfl
      have := valW_nonneg w
      have h0 : pathCostR (c :: acc) ≤ valW w + pathCostR (c :: acc) := by linarith
      exact h0
    · rw [if_neg hc] at h
      cases hlk : lookupC cf c with
      | none =>
        rw [hlk] at h
        simp at h
      | some q =>
        rw [hlk] at h
        obtain ⟨hleg, wn, wp, hwn, hwp, hineq⟩ := hpar c q hlk
        rw [hw] at hwn
        rcases Option.some.inj hwn with rfl
        have hstep := ih q (c :: acc) p wp h hwp
        have hmove : valW (moveCost q c) = stepCostR q c := valW_moveCost_of_neighbor hleg
        have hval : valW (addW wp (moveCost q c)) ≤ valW w := (leW_iff _ _).mp hineq
        rw [valW_addW] at hval
        rw [pathCostR_cons_cons] at hstep
        linarith

/-! ## A rank function on exact cost values

`phiW w` counts the coefficient pairs with value strictly below `w`; it is
finite because a value below `a + b·√2` has both coefficients below
`a + 2b + 1`, and it strictly decreases when the value does. -/

def phiW (w : W) : ℕ :=
  (((Finset.range (w.1 + 2 * w.2 + 1)) ×ˢ (Finset.range (w.1 + 2 * w.2 + 1))).filter
    (fun p : ℕ × ℕ => ltW p w)).card

theorem coeff_lt_of_ltW {x w : W} (h : ltW x w) :
    x.1 < w.1 + 2 * w.2 + 1 ∧ x.2 < w.1 + 2 * w.2 + 1 := by
  rw [ltW_iff] at h
  unfold valW at h
  have h2 : Real.sqrt 2 ≤ 2 := sqrt_two_le_two
  have h1 : (1 : ℝ) ≤ Real.sqrt 2 := one_le_sqrt_two
  have hx1 : (x.1 : ℝ) < w.1 + 2 * w.2 := by
    have hb : (x.2 : ℝ) * Real.sqrt 2 ≥ 0 := by positivity
    have hw : (w.2 : ℝ) * Real.sqrt 2 ≤ 2 * w.2 := by
      have : (0 : ℝ) ≤ (w.2 : ℝ) := by positivity
      nlinarith
    linarith
  have hx2 : (x.2 : ℝ) < w.1 + 2 * w.2 := by
    have hb : (x.2 : ℝ) ≤ x.2 * Real.sqrt 2 := by
      have : (0 : ℝ) ≤ (x.2 : ℝ) := by positivity
      nlinarith
    have hw : (w.2 : ℝ) * Real.sqrt 2 ≤ 2 * w.2 := by
      have : (0 : ℝ) ≤ (w.2 : ℝ) := by positivity
      nlinarith
    have hx1' : (0 : ℝ) ≤ (x.1 : ℝ) := by positivity
    linarith
  constructor
  · have : (x.1 : ℝ) < ((w.1 + 2 * w.2 + 1 : ℕ) : ℝ) := by push_cast; linarith
    exact_mod_cast this
  · have : (x.2 : ℝ) < ((w.1 + 2 * w.2 + 1 : ℕ) : ℝ) := by push_cast; linarith
    exact_mod_cast this

theorem mem_phiW_set {x w : W} :
    x ∈ (((Finset.range (w.1 + 2 * w.2 + 1)) ×ˢ (Finset.range (w.1 + 2 * w.2 + 1))).filter
      (fun p : ℕ × ℕ => ltW p w)) ↔ ltW x w := by
  simp only [Finset.mem_filter, Finset.mem_product, Finset.mem_range]
  constructor
  · rintro ⟨-, h⟩
    exact h
  · intro h
    exact ⟨⟨(coeff_lt_of_ltW h).1, (coeff_lt_of_ltW h).2⟩, h⟩

theorem phiW_lt_phiW {u w : W} (h : ltW u w) : phiW u < phiW w := by
  unfold phiW
  apply Finset.card_lt_card
  constructor
  · intro x hx
    have hxu : ltW x u := mem_phiW_set.mp hx
    exact mem_phiW_set.mpr (ltW_trans hxu h)
  · intro hsub
    have hu : u ∈ (((Finset.range (w.1 + 2 * w.2 + 1)) ×ˢ
        (Finset.range (w.1 + 2 * w.2 + 1))).filter (fun p : ℕ × ℕ => ltW p w)) :=
      mem_phiW_set.mpr h
    have := mem_phiW_set.mp (hsub hu)
    exact ltW_irrefl u this

/-- The reconstruction loop succeeds with fuel exceeding the rank of the
cell's recorded cost: predecessor links strictly decrease the recorded cost,
so the chain reaches `start`. -/
theorem recon_success (g : Grid) (cf : List (Cell × Cell)) (cs : List (Cell × W))
    (start : Cell)
    (hpar : ∀ n p, lookupC cf n = some p → n ∈ get_neighbors p g ∧
      ∃ wn wp, lookupC cs n = some wn ∧ lookupC cs p = some wp ∧
        leW (addW wp (moveCost p n)) wn)
    (hkey : ∀ c, c ≠ start → (lookupC cs c).isSome → (lookupC cf c).isSome) :
    ∀ (k : ℕ) (c : Cell) (w : W) (acc : List Cell),
      lookupC cs c = some w → phiW w < k →
      ∃ p, recon cf start k c acc = some p := by
  intro k
  induction k with
  | zero =>
    intro c w acc _ hphi
    exact absurd hphi (by omega)
  | succ k ih =>
    intro c w acc hw hphi
    by_cases hc : c = start
    · refine ⟨start :: acc, ?_⟩
      rw [recon, if_pos hc]
    · have hcf : (lookupC cf c).isSome := hkey c hc (isSome_of_lookup hw)
      cases hlk : lookupC cf c with
      | none =>
        rw [hlk] at hcf
        simp at hcf
      | some q =>
        obtain ⟨hleg, wn, wp, hwn, hwp, hineq⟩ := hpar c q hlk
        rw [hw] at hwn
        rcases Option.some.inj hwn with rfl
        have hlt : ltW wp w := by
          rw [ltW_iff]
          have h1 : valW (addW wp (moveCost q c)) ≤ valW w := (leW_iff _ _).mp hineq
          rw [valW_addW] at h1
          have h2 : 1 ≤ valW (moveCost q c) := one_le_valW_moveCost hleg
          linarith
        have hphi' : phiW wp < k := by
          have := phiW_lt_phiW hlt
          omega
        obtain ⟨p, hp⟩ := ih q wp (c :: acc) hwp hphi'
        refine ⟨p, ?_⟩
        rw [recon, if_neg hc, hlk]
        exact hp

/-! ## The frontier lemma

Walking any legal path to the goal from a cell with a recorded cost: either
some path cell still has an open entry whose cost plus remaining-path bound
is within the path's total, or the goal itself was popped.  While the goal
has never been popped this always produces an open witness entry. -/

theorem frontier_walk (g : Grid) (goal : Cell) (t : AState)
    (hrec : RecordedEntryInv t) (hexp : TraceExpandedInv g goal t)
    (hGNP : GoalNotPoppedInv goal t) :
    ∀ (p : List Cell) (c : Cell) (w : W),
      IsPathList g p → p.head? = some c → p.getLast? = some goal →
      lookupC t.costSoFar c = some w →
      ∃ e ∈ t.openSet, valW e.2.1 + valW (heuristic e.2.2 goal) ≤ valW w + pathCostR p
  | [], c, w => by
    intro _ hh _ _
    simp at hh
  | [u], c, w => by
    intro _ hh hl hw
    have hc : u = c := by simpa using hh
    have hg : u = goal := by simpa using hl
    obtain ⟨pr, hor⟩ := hrec c w hw
    rcases hor with hopen | htr
    · refine ⟨(pr, w, c), hopen, ?_⟩
      show valW w + valW (heuristic c goal) ≤ valW w + pathCostR [u]
      rw [← hc, hg, heuristic_self, valW_zero, pathCostR_single]
    · exact absurd (hc ▸ hg) (hGNP (pr, w, c) htr)
  | u :: v :: rest, c, w => by
    intro hch hh hl hw
    simp only [List.head?_cons, Option.some.injEq] at hh
    rcases hh with rfl
    have hstep : v ∈ get_neighbors u g := (List.chain'_cons.mp hch).1
    have hch' : IsPathList g (v :: rest) := (List.chain'_cons.mp hch).2
    have hl' : (v :: rest).getLast? = some goal := by
      rw [← hl, List.getLast?_cons_cons]
    obtain ⟨pr, hor⟩ := hrec u w hw
    rcases hor with hopen | htr
    · refine ⟨(pr, w, u), hopen, ?_⟩
      have hadm : heuristicR u goal ≤ pathCostR (u :: v :: rest) :=
        heuristicR_le_pathCostR (u :: v :: rest) u goal
          (isPathList_eightDirPath hch) (by simp) hl
      show valW w + valW (heuristic u goal) ≤ valW w + pathCostR (u :: v :: rest)
      rw [valW_heuristic]
      linarith
    · have hune : u ≠ goal := hGNP (pr, w, u) htr
      obtain ⟨w', hw', hle'⟩ := hexp (pr, w, u) htr hune v hstep
      obtain ⟨e, he, hbound⟩ := frontier_walk g goal t hrec hexp hGNP
        (v :: rest) v w' hch' (by simp) hl' hw'
      refine ⟨e, he, ?_⟩
      have h1 : valW w' ≤ valW w + valW (moveCost u v) := by
        have := (leW_iff _ _).mp hle'
        rw [valW_addW] at this
        exact this
      have h2 : valW (moveCost u v) = stepCostR u v := valW_moveCost_of_neighbor hstep
      rw [pathCostR_cons_cons]
      linarith

/-- An exhausted frontier is impossible while the goal is reachable from a
recorded cell: the walk would produce an open entry. -/
theorem no_exhaust_of_reachable (g : Grid) (start goal : Cell) (t : AState)
    (hI : AInv g start goal t) (hempty : t.openSet = [])
    (hreach : ∃ q, PathFromTo g start goal q) : False := by
  obtain ⟨q, hq, hqh, hql⟩ := hreach
  obtain ⟨e, he, -⟩ := frontier_walk g goal t hI.recorded hI.traceExp hI.goalNot
    q start (0, 0) hq hqh hql hI.startCost
  rw [hempty] at he
  exact absurd he (by simp)

/-! ## Termination of the main loop

The lexicographic measure: number of candidate cells without a recorded
cost, then the total rank of the recorded costs, then the frontier length.
A push either records a new cell, or strictly lowers a recorded cost; a pop
shortens the frontier. -/

/-- The cells a run can ever record: the start and the in-bounds cells. -/
def candList (g : Grid) (start : Cell) : List Cell :=
  start :: (((List.range g.rows ×ˢ List.range g.cols).map
    (fun p => ((p.1 : ℤ), (p.2 : ℤ)))).filter (fun c => decide (c ≠ start)))

theorem mem_candList {g : Grid} {start c : Cell} (h : c = start ∨ inBoundsG g c) :
    c ∈ candList g start := by
  unfold candList
  by_cases hc : c = start
  · rw [hc]
    exact List.mem_cons_self _ _
  · rcases h with h | h
    · exact absurd h hc
    · refine List.mem_cons_of_mem _ ?_
      rw [List.mem_filter]
      refine ⟨?_, by simpa using hc⟩
      obtain ⟨h1, h2, h3, h4⟩ := h
      refine List.mem_map.mpr ⟨(c.1.toNat, c.2.toNat), ?_, ?_⟩
      · rw [List.mem_product]
        constructor <;> rw [List.mem_range] <;> omega
      · rw [Prod.ext_iff]
        constructor <;> dsimp only <;> omega

/-- First component: candidate cells not yet recorded. -/
def uMeasure (g : Grid) (start : Cell) (s : AState) : ℕ :=
  (candList g start).countP (fun c => (lookupC s.costSoFar c).isNone)

/-- Rank of the recorded cost of a cell (zero when unrecorded). -/
def phiLookup (s : AState) (c : Cell) : ℕ :=
  match lookupC s.costSoFar c with
  | none => 0
  | some w => phiW w

/-- Second component: total rank of the recorded costs. -/
def phiMeasure (g : Grid) (start : Cell) (s : AState) : ℕ :=
  ((candList g start).map (phiLookup s)).sum

/-- The three-component termination measure. -/
def measure3 (g : Grid) (start : Cell) (s : AState) : ℕ × ℕ × ℕ :=
  (uMeasure g start s, phiMeasure g start s, s.openSet.length)

/-- How one neighbor relaxation relates to the measure: it either records a
new candidate, strictly lowers a rank, or does nothing at all. -/
def MeasureRel (g : Grid) (start : Cell) (s' s : AState) : Prop :=
  (uMeasure g start s' < uMeasure g start s ∧ s'.openSet.length ≥ s.openSet.length) ∨
  (uMeasure g start s' = uMeasure g start s ∧
    phiMeasure g start s' < phiMeasure g start s ∧
    s'.openSet.length ≥ s.openSet.length) ∨
  s' = s

theorem countP_lt_of_witness {α : Type} (p q : α → Bool) :
    ∀ (l : List α), (∀ a ∈ l, q a = true → p a = true) →
      ∀ a₀ ∈ l, p a₀ = true → q a₀ = false →
        l.countP q < l.countP p
  | [], _, a₀, ha₀ => absurd ha₀ (by simp)
  | b :: t, hmono, a₀, ha₀ => by
    intro hp hq
    rw [List.countP_cons, List.countP_cons]
    rcases List.mem_cons.mp ha₀ with rfl | ha₀'
    · rw [hp, hq, if_pos rfl, if_neg (by simp)]
      have : t.countP q ≤ t.countP p :=
        List.countP_mono_left (fun a ha => hmono a (List.mem_cons_of_mem _ ha))
      omega
    · have hlt : t.countP q < t.countP p :=
        countP_lt_of_witness p q t (fun a ha => hmono a (List.mem_cons_of_mem _ ha))
          a₀ ha₀' hp hq
      cases hb : q b with
      | false =>
        rw [if_neg (by simp)]
        have h01 : (if p b = true then (1 : ℕ) else 0) = 0 ∨
            (if p b = true then (1 : ℕ) else 0) = 1 := by
          split
          · exact Or.inr rfl
          · exact Or.inl rfl
        omega
      | true =>
        rw [hmono b (List.mem_cons_self _ _) hb]
        omega

theorem sum_map_lt_of_witness {α : Type} (f h : α → ℕ) :
    ∀ (l : List α), (∀ a ∈ l, f a ≤ h a) → ∀ a₀ ∈ l, f a₀ < h a₀ →
      (l.map f).sum < (l.map h).sum
  | [], _, a₀, ha₀ => absurd ha₀ (by simp)
  | b :: t, hmono, a₀, ha₀ => by
    intro hlt
    rw [List.map_cons, List.map_cons, List.sum_cons, List.sum_cons]
    have hsle : (t.map f).sum ≤ (t.map h).sum :=
      List.sum_le_sum (fun a ha => hmono a (List.mem_cons_of_mem _ ha))
    rcases List.mem_cons.mp ha₀ with rfl | ha₀'
    · omega
    · have := sum_map_lt_of_witness f h t
        (fun a ha => hmono a (List.mem_cons_of_mem _ ha)) a₀ ha₀' hlt
      have := hmono b (List.mem_cons_self _ _)
      omega

theorem processNeighbor_measure (g : Grid) (start goal cur : Cell) (cc : W)
    (s : AState) (n : Cell) (hn : n ∈ get_neighbors cur g) :
    MeasureRel g start (processNeighbor goal cur cc s n) s := by
  by_cases himp : improvesB s.costSoFar n (addW cc (moveCost cur n)) = true
  case neg =>
    unfold processNeighbor
    rw [if_neg himp]
    exact Or.inr (Or.inr rfl)
  case pos =>
  have hcs : (processNeighbor goal cur cc s n).costSoFar =
      insertC s.costSoFar n (addW cc (moveCost cur n)) := by
    unfold processNeighbor
    rw [if_pos himp]
  have hopen : (processNeighbor goal cur cc s n).openSet =
      heapPush (addW (addW cc (moveCost cur n)) (heuristic n goal),
        addW cc (moveCost cur n), n) s.openSet := by
    unfold processNeighbor
    rw [if_pos himp]
  have hlen : (processNeighbor goal cur cc s n).openSet.length ≥ s.openSet.length := by
    rw [hopen]
    have : ∀ (e : Entry) (l : List Entry), (heapPush e l).length = l.length + 1 := by
      intro e l
      induction l with
      | nil => rfl
      | cons x xs ih =>
        unfold heapPush
        split
        · simp [ih]
        · simp
    rw [this]
    omega
  have hncand : n ∈ candList g start :=
    mem_candList (Or.inr (get_neighbors_spec hn).2.2.2.1)
  rcases improvesB_true_elim himp with hnone | ⟨old, hold, hlt⟩
  · refine Or.inl ⟨?_, hlen⟩
    unfold uMeasure
    refine countP_lt_of_witness _ _ (candList g start) ?_ n hncand ?_ ?_
    · intro a _ hq
      rw [hcs] at hq
      by_cases han : a = n
      · rw [han, lookupC_insertC_self] at hq
        simp at hq
      · rw [lookupC_insertC_ne _ _ han] at hq
        exact hq
    · rw [hnone]
      rfl
    · rw [hcs, lookupC_insertC_self]
      rfl
  · refine Or.inr (Or.inl ⟨?_, ?_, hlen⟩)
    · unfold uMeasure
      apply List.countP_congr
      intro a _
      dsimp only
      rw [hcs]
      by_cases han : a = n
      · rw [han, lookupC_insertC_self, hold]
        simp
      · rw [lookupC_insertC_ne _ _ han]
    · unfold phiMeasure
      refine sum_map_lt_of_witness _ _ (candList g start) ?_ n hncand ?_
      · intro a _
        unfold phiLookup
        rw [hcs]
        by_cases han : a = n
        · rw [han, lookupC_insertC_self, hold]
          exact le_of_lt (phiW_lt_phiW hlt)
        · rw [lookupC_insertC_ne _ _ han]
      · unfold phiLookup
        rw [hcs, lookupC_insertC_self, hold]
        exact phiW_lt_phiW hlt

theorem measureRel_trans {g : Grid} {start : Cell} {s3 s2 s1 : AState}
    (h32 : MeasureRel g start s3 s2) (h21 : MeasureRel g start s2 s1) :
    MeasureRel g start s3 s1 := by
  rcases h32 with h32 | h32 | rfl
  · rcases h21 with h21 | h21 | rfl
    · exact Or.inl ⟨lt_trans h32.1 h21.1, le_trans h21.2 h32.2⟩
    · exact Or.inl ⟨h21.1 ▸ h32.1, le_trans h21.2.2 h32.2⟩
    · exact Or.inl h32
  · rcases h21 with h21 | h21 | rfl
    · exact Or.inl ⟨h32.1 ▸ h21.1, le_trans h21.2 h32.2.2⟩
    · exact Or.inr (Or.inl ⟨h32.1.trans h21.1, lt_trans h32.2.1 h21.2.1,
        le_trans h21.2.2 h32.2.2⟩)
    · exact Or.inr (Or.inl h32)
  · exact h21

theorem foldl_measure (g : Grid) (start goal cur : Cell) (cc : W) :
    ∀ (l : List Cell) (s : AState), (∀ n ∈ l, n ∈ get_neighbors cur g) →
      MeasureRel g start (List.foldl (processNeighbor goal cur cc) s l) s
  | [], s => fun _ => Or.inr (Or.inr rfl)
  | n :: l', s => by
    intro hsub
    rw [List.foldl_cons]
    have hstep : MeasureRel g start (processNeighbor goal cur cc s n) s :=
      processNeighbor_measure g start goal cur cc s n (hsub n (List.mem_cons_self n l'))
    have hrest : MeasureRel g start
        (List.foldl (processNeighbor goal cur cc) (processNeighbor goal cur cc s n) l')
        (processNeighbor goal cur cc s n) :=
      foldl_measure g start goal cur cc l' (processNeighbor goal cur cc s n)
        (fun m hm => hsub m (List.mem_cons_of_mem n hm))
    exact measureRel_trans hrest hstep

theorem lex3_of {a1 a2 b1 b2 c1 c2 : ℕ}
    (h : a1 < a2 ∨ (a1 = a2 ∧ (b1 < b2 ∨ (b1 = b2 ∧ c1 < c2)))) :
    Prod.Lex (· < · : ℕ → ℕ → Prop)
      (Prod.Lex (· < · : ℕ → ℕ → Prop) (· < · : ℕ → ℕ → Prop))
      (a1, b1, c1) (a2, b2, c2) := by
  rcases h with h | ⟨rfl, h | ⟨rfl, h⟩⟩
  · exact Prod.Lex.left _ _ h
  · exact Prod.Lex.right _ (Prod.Lex.left _ _ h)
  · exact Prod.Lex.right _ (Prod.Lex.right _ h)

/-- Each non-final loop iteration strictly decreases the termination
measure. -/
theorem expand_measure_decrease (g : Grid) (start goal : Cell) (e : Entry)
    (rest : List Entry) (cf : List (Cell × Cell)) (cs : List (Cell × W))
    (tr : List Entry) :
    Prod.Lex (· < · : ℕ → ℕ → Prop)
      (Prod.Lex (· < · : ℕ → ℕ → Prop) (· < · : ℕ → ℕ → Prop))
      (measure3 g start (expand g goal e ⟨rest, cf, cs, e :: tr⟩))
      (measure3 g start ⟨e :: rest, cf, cs, tr⟩) := by
  have hrel : MeasureRel g start (expand g goal e ⟨rest, cf, cs, e :: tr⟩)
      ⟨rest, cf, cs, e :: tr⟩ :=
    foldl_measure g start goal e.2.2 e.2.1 (get_neighbors e.2.2 g)
      ⟨rest, cf, cs, e :: tr⟩ (fun m hm => hm)
  have hU : uMeasure g start (⟨rest, cf, cs, e :: tr⟩ : AState) =
      uMeasure g start (⟨e :: rest, cf, cs, tr⟩ : AState) := rfl
  have hPhi : phiMeasure g start (⟨rest, cf, cs, e :: tr⟩ : AState) =
      phiMeasure g start (⟨e :: rest, cf, cs, tr⟩ : AState) := rfl
  unfold measure3
  rcases hrel with h | h | h
  · exact lex3_of (Or.inl (hU ▸ h.1))
  · exact lex3_of (Or.inr ⟨hU ▸ h.1, Or.inl (hPhi ▸ h.2.1)⟩)
  · rw [h]
    refine lex3_of (Or.inr ⟨hU, Or.inr ⟨hPhi, ?_⟩⟩)
    simp

/-- The main loop terminates on every input: some fuel reaches a final
state. -/
theorem loop_terminates (g : Grid) (start goal : Cell) :
    ∀ s : AState, ∃ n t, runLoop g goal n s = some t := by
  have hwf : WellFounded (InvImage (Prod.Lex (· < · : ℕ → ℕ → Prop)
      (Prod.Lex (· < · : ℕ → ℕ → Prop) (· < · : ℕ → ℕ → Prop))) (measure3 g start)) :=
    InvImage.wf _ (WellFounded.prod_lex Nat.lt_wfRel.wf
      (WellFounded.prod_lex Nat.lt_wfRel.wf Nat.lt_wfRel.wf))
  intro s
  induction s using WellFounded.induction hwf with
  | _ x ih =>
  obtain ⟨os, cf, cs, tr⟩ := x
  cases os with
  | nil => exact ⟨1, ⟨[], cf, cs, tr⟩, by rw [runLoop]⟩
  | cons e rest =>
    by_cases hgoal : e.2.2 = goal
    · exact ⟨1, ⟨rest, cf, cs, e :: tr⟩, by rw [runLoop, if_pos hgoal]⟩
    · obtain ⟨n, t, hrun⟩ := ih (expand g goal e ⟨rest, cf, cs, e :: tr⟩)
        (expand_measure_decrease g start goal e rest cf cs tr)
      exact ⟨n + 1, t, by rw [runLoop, if_neg hgoal]; exact hrun⟩

/-! ## Assembly of the main results -/

theorem astarRun_eq {fuel : ℕ} {start goal : Cell} {g : Grid} {t : AState}
    (h : runLoop g goal fuel (initState start) = some t) :
    astarRun fuel start goal g = finishRun start goal fuel t := by
  unfold astarRun
  rw [h]
  rfl

theorem finishRun_of_none (start goal : Cell) (fuel : ℕ) {t : AState}
    (h : lookupC t.cameFrom goal = none) : finishRun start goal fuel t = some none := by
  unfold finishRun
  rw [h]

theorem finishRun_of_some (start goal : Cell) (fuel : ℕ) {t : AState} {q : Cell}
    {p : List Cell} (h : lookupC t.cameFrom goal = some q)
    (hrec : recon t.cameFrom start fuel goal [] = some p) :
    finishRun start goal fuel t = some (some p) := by
  unfold finishRun
  rw [h, hrec]

/-- C5.  On a valid query with an unreachable goal the search returns the
`None` no-path signal — an ordinary return value distinct from an empty
path; the embedding returns values only, matching the code, whose only
exception point (the reconstruction dict access) is never reached here. -/
theorem astar_unreachable_returns_none (start goal : Cell) (g : Grid)
    (hs : inBoundsG g start) (hg : inBoundsG g goal)
    (hfs : g.val start.1 start.2 = 0) (hfg : g.val goal.1 goal.2 = 0)
    (hne : start ≠ goal)
    (hunreach : ¬ ∃ q, PathFromTo g start goal q) :
    AstarReturns start goal g none ∧ (none : Option (List Cell)) ≠ some [] := by
  obtain ⟨n, t, hrun⟩ := loop_terminates g start goal (initState start)
  obtain ⟨hexit, -⟩ :=
    runLoop_exit g start goal n (initState start) t (inv_init g start goal) hrun
  refine ⟨⟨n, ?_⟩, by simp⟩
  rw [astarRun_eq hrun]
  rcases hexit with ⟨hempty, hIt⟩ | ⟨e, tr', hegoal, htr, hIb⟩
  · cases hlk : lookupC t.cameFrom goal with
    | none => exact finishRun_of_none start goal n hlk
    | some q =>
      exfalso
      have hgs : goal ≠ start := fun h => hne h.symm
      have hsome : (lookupC t.costSoFar goal).isSome :=
        (hIt.keyLink goal hgs).mpr (isSome_of_lookup hlk)
      exact hunreach (hIt.reach goal hsome)
  · exfalso
    obtain ⟨w, hw, -⟩ := hIb.entryCost e (List.mem_cons_self _ _)
    rw [hegoal] at hw
    exact hunreach (hIb.reach goal (isSome_of_lookup hw))

/-- Witness for C5: the 1×3 grid with a middle wall separates `(0,0)` from
`(0,2)`, and the search returns `None`. -/
theorem astar_unreachable_returns_none_witness :
    AstarReturns (0, 0) (0, 2) gridWall none ∧
      (none : Option (List Cell)) ≠ some [] :=
  astar_unreachable_returns_none (0, 0) (0, 2) gridWall (by decide) (by decide)
    (by decide) (by decide) (by decide)
    (by
      rintro ⟨q, hq, hh, hl⟩
      cases q with
      | nil => simp at hh
      | cons a tl =>
        have ha : a = ((0 : ℤ), (0 : ℤ)) := by simpa using hh
        cases tl with
        | nil =>
          rw [ha] at hl
          exact absurd hl (by decide)
        | cons b tl2 =>
          have hb : b ∈ get_neighbors (0, 0) gridWall := by
            rw [ha] at hq
            exact (List.chain'_cons.mp hq).1
          rw [(by decide : get_neighbors (0, 0) gridWall = [])] at hb
          exact absurd hb (by simp))

/-- C8.  The search terminates on every input: both the main loop and the
reconstruction loop finish, and some fuel returns a final answer. -/
theorem astar_terminates (start goal : Cell) (g : Grid) :
    ∃ n r, astarRun n start goal g = some r := by
  obtain ⟨n, t, hrun⟩ := loop_terminates g start goal (initState start)
  obtain ⟨hexit, -⟩ :=
    runLoop_exit g start goal n (initState start) t (inv_init g start goal) hrun
  have hpar : ∀ m p, lookupC t.cameFrom m = some p → m ∈ get_neighbors p g ∧
      ∃ wn wp, lookupC t.costSoFar m = some wn ∧ lookupC t.costSoFar p = some wp ∧
        leW (addW wp (moveCost p m)) wn := by
    rcases hexit with ⟨-, hIt⟩ | ⟨e, tr', -, -, hIb⟩
    · exact hIt.parent
    · exact hIb.parent
  have hkey : ∀ c, c ≠ start → (lookupC t.costSoFar c).isSome →
      (lookupC t.cameFrom c).isSome := by
    rcases hexit with ⟨-, hIt⟩ | ⟨e, tr', -, -, hIb⟩
    · exact fun c hc hs => (hIt.keyLink c hc).mp hs
    · exact fun c hc hs => (hIb.keyLink c hc).mp hs
  have hsnp : lookupC t.cameFrom start = none := by
    rcases hexit with ⟨-, hIt⟩ | ⟨e, tr', -, -, hIb⟩
    · exact hIt.startNoParent
    · exact hIb.startNoParent
  cases hlk : lookupC t.cameFrom goal with
  | none =>
    exact ⟨n, none, by rw [astarRun_eq hrun]; exact finishRun_of_none start goal n hlk⟩
  | some q =>
    have hgs : goal ≠ start := by
      intro h
      rw [h, hsnp] at hlk
      exact absurd hlk (by simp)
    have hparent := hpar goal q hlk
    obtain ⟨wg, wp, hwg, -, -⟩ := hparent.2
    obtain ⟨p, hrec⟩ := recon_success g t.cameFrom t.costSoFar start hpar hkey
      (max n (phiW wg + 1)) goal wg [] hwg
      (by have := Nat.le_max_right n (phiW wg + 1); omega)
    have hrun' := runLoop_mono g goal n (max n (phiW wg + 1)) _ t
      (Nat.le_max_left _ _) hrun
    exact ⟨max n (phiW wg + 1), some p, by
      rw [astarRun_eq hrun']
      exact finishRun_of_some start goal _ hlk hrec⟩

/-- C7.  Whenever the search returns a path, the path starts at `start`,
ends at `goal`, and every consecutive pair is a legal neighbor move. -/
theorem astar_path_legal (start goal : Cell) (g : Grid) (fuel : ℕ) (p : List Cell)
    (h : astarRun fuel start goal g = some (some p)) :
    PathFromTo g start goal p := by
  unfold astarRun at h
  cases hrun : runLoop g goal fuel (initState start) with
  | none =>
    rw [hrun] at h
    exact absurd h (by simp)
  | some t =>
    rw [hrun] at h
    simp only [Option.some_bind] at h
    unfold finishRun at h
    cases hlk : lookupC t.cameFrom goal with
    | none =>
      rw [hlk] at h
      simp at h
    | some q =>
      rw [hlk] at h
      cases hrec : recon t.cameFrom start fuel goal [] with
      | none =>
        rw [hrec] at h
        simp at h
      | some p' =>
        rw [hrec] at h
        have hp' : p' = p := by simpa using h
        subst hp'
        obtain ⟨hexit, -⟩ :=
          runLoop_exit g start goal fuel (initState start) t (inv_init g start goal) hrun
        have hleg : ∀ m pq, lookupC t.cameFrom m = some pq → m ∈ get_neighbors pq g := by
          rcases hexit with ⟨-, hIt⟩ | ⟨e, tr', -, -, hIb⟩
          · exact fun m pq hmp => (hIt.parent m pq hmp).1
          · exact fun m pq hmp => (hIb.parent m pq hmp).1
        obtain ⟨hpath, hh, hl⟩ := recon_spec g t.cameFrom start hleg fuel goal [] p'
          hrec (List.chain'_singleton _)
        exact ⟨hpath, hh, by rw [hl]; rfl⟩

/-- Witness for C7: the path returned on the free 2×2 grid is a legal path
from `(0,0)` to `(1,1)`. -/
theorem astar_path_legal_witness :
    PathFromTo gridFree2 (0, 0) (1, 1) [(0, 0), (1, 1)] :=
  astar_path_legal (0, 0) (1, 1) gridFree2 3 [(0, 0), (1, 1)] (by decide)

/-! ## C1: optimality -/

/-- Counterexample to C1 as stated: with `start = goal` (which is reachable
by the trivial path) the code returns `None` and no path at all, so the
claim fails at this input. -/
theorem astar_optimality_fails_at_trivial_query :
    inBoundsG gridFree1 (0, 0) ∧ gridFree1.val 0 0 = 0 ∧
      PathFromTo gridFree1 (0, 0) (0, 0) [(0, 0)] ∧
      ¬ ∃ p, AstarReturns (0, 0) (0, 0) gridFree1 (some p) := by
  refine ⟨by decide, by decide, ⟨List.chain'_singleton _, rfl, rfl⟩, ?_⟩
  rintro ⟨p, m, hm⟩
  have h1 : astarRun (max m 1) (0, 0) (0, 0) gridFree1 = some (some p) :=
    astarRun_mono (le_max_left m 1) hm
  have h2 : astarRun (max m 1) (0, 0) (0, 0) gridFree1 = some none :=
    astarRun_mono (le_max_right m 1) (by decide)
  rw [h1] at h2
  simp at h2

/-- C1, amended with `start ≠ goal`.  On a valid query with distinct,
reachable endpoints, the search returns a legal path from start to goal
whose total Euclidean edge cost is least among all legal paths. -/
theorem astar_optimal_for_distinct_endpoints (start goal : Cell) (g : Grid)
    (hs : inBoundsG g start) (hg : inBoundsG g goal)
    (hfs : g.val start.1 start.2 = 0) (hfg : g.val goal.1 goal.2 = 0)
    (hne : start ≠ goal) (hreach : ∃ q, PathFromTo g start goal q) :
    ∃ p, AstarReturns start goal g (some p) ∧ PathFromTo g start goal p ∧
      ∀ q, PathFromTo g start goal q → pathCostR p ≤ pathCostR q := by
  obtain ⟨n, t, hrun⟩ := loop_terminates g start goal (initState start)
  obtain ⟨hexit, -⟩ :=
    runLoop_exit g start goal n (initState start) t (inv_init g start goal) hrun
  rcases hexit with ⟨hempty, hIt⟩ | ⟨e, tr', hegoal, htr, hIb⟩
  · exact absurd hreach (fun hr => no_exhaust_of_reachable g start goal t hIt hempty hr)
  · obtain ⟨wg, hwg, hwgle⟩ := hIb.entryCost e (List.mem_cons_self _ _)
    rw [hegoal] at hwg
    have hgs : goal ≠ start := fun h => hne h.symm
    have hcf : (lookupC t.cameFrom goal).isSome :=
      (hIb.keyLink goal hgs).mp (isSome_of_lookup hwg)
    obtain ⟨q0, hq0⟩ := Option.isSome_iff_exists.mp hcf
    have hpar := hIb.parent
    have hkey : ∀ c, c ≠ start → (lookupC t.costSoFar c).isSome →
        (lookupC t.cameFrom c).isSome :=
      fun c hc hs' => (hIb.keyLink c hc).mp hs'
    obtain ⟨p, hrec⟩ := recon_success g t.cameFrom t.costSoFar start hpar hkey
      (max n (phiW wg + 1)) goal wg [] hwg
      (by have := Nat.le_max_right n (phiW wg + 1); omega)
    have hleg : ∀ m pq, lookupC t.cameFrom m = some pq → m ∈ get_neighbors pq g :=
      fun m pq hmp => (hpar m pq hmp).1
    obtain ⟨hpathp, hheadp, hlastp⟩ :=
      recon_spec g t.cameFrom start hleg _ goal [] p hrec (List.chain'_singleton _)
    have hcostp : pathCostR p ≤ valW wg + pathCostR [goal] :=
      recon_cost g t.cameFrom t.costSoFar start hpar _ goal [] p wg hrec hwg
    rw [pathCostR_single] at hcostp
    have hrun' := runLoop_mono g goal n (max n (phiW wg + 1)) _ t
      (Nat.le_max_left _ _) hrun
    have hret : astarRun (max n (phiW wg + 1)) start goal g = some (some p) := by
      rw [astarRun_eq hrun']
      exact finishRun_of_some start goal _ hq0 hrec
    refine ⟨p, ⟨_, hret⟩, ⟨hpathp, hheadp, by rw [hlastp]; rfl⟩, ?_⟩
    intro q hq
    obtain ⟨hqch, hqh, hql⟩ := hq
    obtain ⟨ew, hew, hbound⟩ := frontier_walk g goal
      ⟨e :: t.openSet, t.cameFrom, t.costSoFar, tr'⟩ hIb.recorded hIb.traceExp
      hIb.goalNot q start (0, 0) hqch hqh hql hIb.startCost
    have hle : entryLe e ew := sorted_head_le hIb.sorted ew hew
    have hprle : valW e.1 ≤ valW ew.1 := (leW_iff _ _).mp (entryLe_priority_leW hle)
    have hpre' : e.1 = addW e.2.1 (heuristic e.2.2 goal) := by
      rcases hIb.priority e (List.mem_cons_self _ _) with h | h
      · exact h
      · exfalso
        have hnode : e.2.2 = start := by rw [h]
        rw [hnode] at hegoal
        exact hne hegoal
    have h1 : valW e.1 = valW e.2.1 := by
      rw [hpre', hegoal, heuristic_self, addW_zero_right]
    rw [valW_zero] at hbound
    have h2 : valW ew.1 ≤ pathCostR q := by
      rcases hIb.priority ew hew with h | h
      · rw [h, valW_addW]
        linarith
      · have hpr0 : ew.1 = ((0, 0) : W) := by rw [h]
        rw [hpr0, valW_zero]
        exact pathCostR_nonneg q
    have h3 : valW wg ≤ valW e.2.1 := (leW_iff _ _).mp hwgle
    linarith

/-- Witness for C1 (amended): the free 2×2 grid with distinct reachable
endpoints admits an optimal returned path. -/
theorem astar_optimal_for_distinct_endpoints_witness :
    ∃ p, AstarReturns (0, 0) (0, 1) gridFree2 (some p) ∧
      PathFromTo gridFree2 (0, 0) (0, 1) p ∧
      ∀ q, PathFromTo gridFree2 (0, 0) (0, 1) q → pathCostR p ≤ pathCostR q :=
  astar_optimal_for_distinct_endpoints (0, 0) (0, 1) gridFree2 (by decide) (by decide)
    (by decide) (by decide) (by decide)
    ⟨[(0, 0), (0, 1)], List.chain'_pair.mpr (by decide), rfl, rfl⟩
